import Mathlib

/-!
Verification development for the eidc32proxy repository (Go).

The definitions below are shallow embeddings of the relevant Go source
functions.  Machine integers are modelled with Nat/Int (overflow is
irrelevant to the verified properties), byte slices with List Nat,
Go strings with String (or List Char where character-level recursion is
needed), and fallible operations with Option.  Where a Go function
delegates to the Go standard library (JSON unmarshalling, URL parsing and
encoding, HTTP serialization, package sort), the relevant standard-library
behaviour is modelled explicitly next to the embedded repository function,
as documented on each definition.
-/

set_option maxRecDepth 4000

namespace Eidc32proxy

/-! ## Message type enumeration (message_common.go, iota constants) -/

/-- MsgType is an int in the source (`type MsgType int`). -/
abbrev MsgType := Nat

def MsgTypeUnknown : MsgType := 0
def MsgTypeConnectedRequest : MsgType := 1
def MsgTypeConnectedResponse : MsgType := 2
def MsgTypeGetoutboundRequest : MsgType := 3
def MsgTypeGetoutboundResponse : MsgType := 4
def MsgTypeGetPointStatusRequest : MsgType := 5
def MsgTypeGetPointStatusResponse : MsgType := 6
def MsgTypeSetTimeRequest : MsgType := 7
def MsgTypeSetTimeResponse : MsgType := 8
def MsgTypePointStatusRequest : MsgType := 9
def MsgTypeEventRequest : MsgType := 10
def MsgTypeDoor0x2fLockStatusRequest : MsgType := 11
def MsgTypeDoor0x2fLockStatusResponse : MsgType := 12
def MsgTypeEnableEventsRequest : MsgType := 13
def MsgTypeEnableEventsResponse : MsgType := 14
def MsgTypeEventAckRequest : MsgType := 15
def MsgTypeEventAckResponse : MsgType := 16
def MsgTypeHeartbeatRequest : MsgType := 17
def MsgTypeHeartbeatResponse : MsgType := 18
def MsgTypeSetWebUserRequest : MsgType := 19
def MsgTypeSetWebUserResponse : MsgType := 20
def MsgTypeSetOutboundRequest : MsgType := 21
def MsgTypeSetOutboundResponse : MsgType := 22
def MsgTypeResetEventsRequest : MsgType := 23
def MsgTypeResetEventsResponse : MsgType := 24
def MsgTypeClearPointsRequest : MsgType := 25
def MsgTypeClearPointsResponse : MsgType := 26
def MsgTypeAddPointsRequest : MsgType := 27
def MsgTypeAddPointsResponse : MsgType := 28
def MsgTypeResetPointEngineRequest : MsgType := 29
def MsgTypeResetPointEngineResponse : MsgType := 30
def MsgTypeAddFormatsRequest : MsgType := 31
def MsgTypeAddFormatsResponse : MsgType := 32
def MsgTypeAddPrivilegesRequest : MsgType := 33
def MsgTypeAddPrivilegesResponse : MsgType := 34
def MsgTypeAddCardsRequest : MsgType := 35
def MsgTypeAddCardsResponse : MsgType := 36
def MsgTypeSetConfigKeyRequest : MsgType := 37
def MsgTypeSetConfigKeyResponse : MsgType := 38
def MsgTypeSetDeviceIDRequest : MsgType := 39
def MsgTypeSetDeviceIDResponse : MsgType := 40
def MsgTypeClearSchedulesRequest : MsgType := 41
def MsgTypeClearSchedulesResponse : MsgType := 42
def MsgTypeClearHolidaysRequest : MsgType := 43
def MsgTypeClearHolidaysResponse : MsgType := 44
def MsgTypeAddSchedulesRequest : MsgType := 45
def MsgTypeAddSchedulesResponse : MsgType := 46
def MsgTypeClearPrivilegesRequest : MsgType := 47
def MsgTypeClearPrivilegesResponse : MsgType := 48
def MsgTypeClearCardsRequest : MsgType := 49
def MsgTypeClearCardsResponse : MsgType := 50
def MsgTypeDownloadRequest : MsgType := 51
def MsgTypeDownloadResponse : MsgType := 52
def MsgTypeReflashRequest : MsgType := 53
def MsgTypeReflashResponse : MsgType := 54

/-! ## Mangler result flags (mangle.go)

`MangleResult` is a `uint8` bitset in the source; modelled as Nat, with
the flag constants `1 << 0` .. `1 << 4` and Go's bitwise operators
mapped to `Nat.land` / `Nat.lor`. -/

abbrev MangleResult := Nat

def ManglerDone : MangleResult := 1
def ManglerDrop : MangleResult := 2
def ManglerErr : MangleResult := 4
def ManglerSuccess : MangleResult := 8
def ManglerNoop : MangleResult := 16

/-- Test `mr&flag == flag`, the idiom the relay uses to inspect results. -/
def hasFlag (mr flag : MangleResult) : Bool :=
  Nat.land mr flag == flag

/-! ## DropMessageByType (mangle.go lines 89-107)

Embedded exactly as written, including the `&` (bitwise AND) operators
on the zero-initialised `result` variable. -/

structure DropMessageByType where
  DropType : MsgType
  Remaining : Int
  deriving Repr, DecidableEq

/-- Shallow embedding of `DropMessageByType.Mangle`.  The message enters
only through its `Type` field; the returned pair is (updated receiver,
result flags).  The error result is always nil in the source and is
omitted. -/
def DropMessageByType.mangle (o : DropMessageByType) (msgType : MsgType) :
    DropMessageByType × MangleResult :=
  if msgType = o.DropType then
    let o' : DropMessageByType := { o with Remaining := o.Remaining - 1 }
    let result : MangleResult := 0
    let result := Nat.land result ManglerSuccess
    let result := Nat.land result ManglerDrop
    let result := if o'.Remaining < 1 then Nat.land result ManglerDone else result
    (o', result)
  else
    (o, ManglerNoop)

/-! ## Session server-key history (part_004: updateSessionDataWithConnectedResponse,
part_000: newSession initialises `serverKeys: []string{loginInfo.ServerKey}`) -/

/-- Shallow embedding of `Session.updateSessionDataWithConnectedResponse`
restricted to the `serverKeys` field it updates.  `serverKey` is the
`ServerKey` field parsed from the message body (`msg.ParseConnectedResponse`);
the source indexes `o.serverKeys[len(o.serverKeys)-1]`, which in Go is the
last element when the slice is nonempty (the session constructor makes it
a one-element slice).  `List.getLastD` models the same access. -/
def updateServerKeys (serverKeys : List String) (serverKey : String) : List String :=
  if serverKeys.getLastD "" ≠ serverKey then serverKeys ++ [serverKey] else serverKeys

/-- Folding a run of ConnectedResponse server keys through the session
updater, in arrival order. -/
def updateServerKeysRun (serverKeys : List String) (keys : List String) : List String :=
  keys.foldl updateServerKeys serverKeys

/-! ## Message model and type derivation (message_common.go, message_eidc32.go,
message_intellim.go)

`http.Request` / `http.Response` are modelled with the fields the typing
code reads.  JSON unmarshalling of the body (`json.Unmarshal`) is modelled
by carrying the unmarshal outcome as a field: `bodyConnected` is the result
of decoding the body as a `ConnectedResponse` (none = decode error) and
`bodyEidc` the result of decoding it as an `EIDCBodyResponse`. -/

structure GoRequest where
  method : String
  urlPath : String
  urlString : String
  contentTypeVal : String
  deriving Repr, DecidableEq

structure GoResponse where
  status : String
  contentTypeVal : String
  deriving Repr, DecidableEq

/-- Result of `json.Unmarshal` into `ConnectedResponse` (message_intellim.go). -/
structure ConnectedResponseData where
  serverKey : String
  deriving Repr, DecidableEq

/-- Result of `json.Unmarshal` into `EIDCBodyResponse` (message_eidc32.go). -/
structure EIDCBodyResponseData where
  cmd : String
  deriving Repr, DecidableEq

/-- Direction is a bool in the source: `Northbound Direction = true`,
`Southbound = false`. -/
structure GoMessage where
  northbound : Bool
  request : Option GoRequest
  response : Option GoResponse
  bodyConnected : Option ConnectedResponseData
  bodyEidc : Option EIDCBodyResponseData
  mtype : MsgType
  deriving Repr, DecidableEq

/-- Embeds `Message.contentType()` (message_common.go): request header wins,
then response header, else empty. -/
def GoMessage.contentTypeOf (m : GoMessage) : String :=
  match m.request with
  | some r => r.contentTypeVal
  | none =>
    match m.response with
    | some r => r.contentTypeVal
    | none => ""

/-- Embeds `Message.getSouthboundRequestType` (message_intellim.go):
method+path over the closed URI table. -/
def getSouthboundRequestType (r : GoRequest) : MsgType :=
  if r.method = "GET" then
    if r.urlPath = "/eidc/heartbeat" then MsgTypeHeartbeatRequest
    else if r.urlPath = "/eidc/getoutbound" then MsgTypeGetoutboundRequest
    else if r.urlPath = "/eidc/enableevents" then MsgTypeEnableEventsRequest
    else if r.urlPath = "/eidc/resetevents" then MsgTypeResetEventsRequest
    else if r.urlPath = "/eidc/clearPoints" then MsgTypeClearPointsRequest
    else if r.urlPath = "/eidc/resetPointEngine" then MsgTypeResetPointEngineRequest
    else if r.urlPath = "/eidc/clearformats" then MsgTypeClearPointsRequest
    else if r.urlPath = "/eidc/clearSchedules" then MsgTypeClearSchedulesRequest
    else if r.urlPath = "/eidc/clearHolidays" then MsgTypeClearHolidaysRequest
    else if r.urlPath = "/eidc/clearPrivileges" then MsgTypeClearPrivilegesRequest
    else if r.urlPath = "/eidc/clearCards" then MsgTypeClearCardsRequest
    else if r.urlPath = "/eidc/reflash" then MsgTypeReflashRequest
    else MsgTypeUnknown
  else if r.method = "POST" then
    if r.urlPath = "/eidc/setTime" then MsgTypeSetTimeRequest
    else if r.urlPath = "/eidc/setwebuser" then MsgTypeSetWebUserRequest
    else if r.urlPath = "/eidc/getPointStatus" then MsgTypeGetPointStatusRequest
    else if r.urlPath = "/eidc/eventack" then MsgTypeEventAckRequest
    else if r.urlPath = "/eidc/door/lockstatus" then MsgTypeDoor0x2fLockStatusRequest
    else if r.urlPath = "/eidc/setoutbound" then MsgTypeSetOutboundRequest
    else if r.urlPath = "/eidc/addPoints" then MsgTypeAddPointsRequest
    else if r.urlPath = "/eidc/addFormats" then MsgTypeAddFormatsRequest
    else if r.urlPath = "/eidc/addPrivileges" then MsgTypeAddPrivilegesRequest
    else if r.urlPath = "/eidc/addCards" then MsgTypeAddCardsRequest
    else if r.urlPath = "/eidc/setConfigKey" then MsgTypeSetConfigKeyRequest
    else if r.urlPath = "/eidc/setDeviceID" then MsgTypeSetDeviceIDRequest
    else if r.urlPath = "/eidc/addSchedules" then MsgTypeAddSchedulesRequest
    else if r.urlPath = "/eidc/download" then MsgTypeDownloadRequest
    else MsgTypeUnknown
  else MsgTypeUnknown

/-- Embeds `Message.getSouthboundResponseType` (message_intellim.go
lines 286-304): `200 OK` status, `application/json` content type, body
decodes as ConnectedResponse with nonempty serverKey. -/
def getSouthboundResponseType (m : GoMessage) (r : GoResponse) : MsgType :=
  if r.status ≠ "200 OK" then MsgTypeUnknown
  else if m.contentTypeOf ≠ "application/json" then MsgTypeUnknown
  else
    match m.bodyConnected with
    | none => MsgTypeUnknown
    | some result =>
      if result.serverKey = "" then MsgTypeUnknown
      else MsgTypeConnectedResponse

/-- Embeds `Message.getSouthboundMsgType` (message_intellim.go). -/
def getSouthboundMsgType (m : GoMessage) : MsgType :=
  match m.request with
  | some r => getSouthboundRequestType r
  | none =>
    match m.response with
    | some r => getSouthboundResponseType m r
    | none => MsgTypeUnknown

/-- Embeds `Message.getNorthboundRequestType` (message_eidc32.go):
POST over `URL.String()` against the three northbound URIs. -/
def getNorthboundRequestType (r : GoRequest) : MsgType :=
  if r.method = "GET" then MsgTypeUnknown
  else if r.method = "POST" then
    if r.urlString = "/eidc/connected" then MsgTypeConnectedRequest
    else if r.urlString = "/eidc/pointStatus" then MsgTypePointStatusRequest
    else if r.urlString = "/eidc/event" then MsgTypeEventRequest
    else MsgTypeUnknown
  else MsgTypeUnknown

/-- Embeds `Message.getNorthboundResponseType` (message_eidc32.go):
`200 OK` + `application/json` + the closed `cmd` table of the decoded
`EIDCBodyResponse`. -/
def getNorthboundResponseType (m : GoMessage) (r : GoResponse) : MsgType :=
  if r.status ≠ "200 OK" then MsgTypeUnknown
  else if m.contentTypeOf ≠ "application/json" then MsgTypeUnknown
  else
    match m.bodyEidc with
    | none => MsgTypeUnknown
    | some result =>
      if result.cmd = "DOOR/LOCKSTATUS" then MsgTypeDoor0x2fLockStatusResponse
      else if result.cmd = "ENABLEEVENTS" then MsgTypeEnableEventsResponse
      else if result.cmd = "EVENTACK" then MsgTypeEventAckResponse
      else if result.cmd = "GETOUTBOUND" then MsgTypeGetoutboundResponse
      else if result.cmd = "GETPOINTSTATUS" then MsgTypeGetPointStatusResponse
      else if result.cmd = "HEARTBEAT" then MsgTypeHeartbeatResponse
      else if result.cmd = "SETTIME" then MsgTypeSetTimeResponse
      else if result.cmd = "SETWEBUSER" then MsgTypeSetWebUserResponse
      else if result.cmd = "SETOUTBOUND" then MsgTypeSetOutboundResponse
      else if result.cmd = "RESETEVENTS" then MsgTypeResetEventsResponse
      else if result.cmd = "CLEARPOINTS" then MsgTypeClearPointsResponse
      else if result.cmd = "RESETPOINTENGINE" then MsgTypeResetPointEngineResponse
      else if result.cmd = "ADDFORMATS" then MsgTypeAddFormatsResponse
      else if result.cmd = "CLEARSCHEDULES" then MsgTypeClearSchedulesResponse
      else if result.cmd = "ADDSCHEDULES" then MsgTypeAddSchedulesResponse
      else if result.cmd = "CLEARPRIVILEGES" then MsgTypeClearPrivilegesResponse
      else if result.cmd = "ADDPRIVILEGES" then MsgTypeAddPrivilegesResponse
      else if result.cmd = "CLEARCARDS" then MsgTypeClearCardsResponse
      else if result.cmd = "SETCONFIGKEY" then MsgTypeSetConfigKeyResponse
      else if result.cmd = "CLEARHOLIDAYS" then MsgTypeClearHolidaysResponse
      else if result.cmd = "DOWNLOAD" then MsgTypeDownloadResponse
      else if result.cmd = "REFLASH" then MsgTypeReflashResponse
      else if result.cmd = "SETDEVICEID" then MsgTypeSetDeviceIDRequest
      else if result.cmd = "ADDCARDS" then MsgTypeAddCardsResponse
      else if result.cmd = "ADDPOINTS" then MsgTypeAddPointsResponse
      else MsgTypeUnknown

/-- Embeds `Message.getNorthboundType` (message_eidc32.go). -/
def getNorthboundType (m : GoMessage) : MsgType :=
  match m.request with
  | some r => getNorthboundRequestType r
  | none =>
    match m.response with
    | some r => getNorthboundResponseType m r
    | none => MsgTypeUnknown

/-- Embeds `Message.GetType` (message_common.go lines 196-208): a stored
nonzero `Type` is returned as-is; otherwise the type is derived from the
direction and the message content. -/
def GoMessage.getType (m : GoMessage) : MsgType :=
  if m.mtype ≠ 0 then m.mtype
  else if m.northbound then getNorthboundType m
  else getSouthboundMsgType m

/-! ## Pager subscription (pager.go)

Subscriber channels are modelled by Nat identifiers and Go's
`map[MsgType]map[chan Message]struct{}` by an association list from key to
the list of registered channels (insertion order; Go map iteration order
is irrelevant to the registration claims). -/

def SubMsgCatAny : Nat := 0
def SubMsgCatAnyNB : Nat := 1
def SubMsgCatAnyNBReq : Nat := 2
def SubMsgCatAnyNBResp : Nat := 3
def SubMsgCatAnySB : Nat := 4
def SubMsgCatAnySBReq : Nat := 5
def SubMsgCatAnySBResp : Nat := 6
def SubMsgCatAnyReq : Nat := 7
def SubMsgCatAnyResp : Nat := 8

structure SubInfo where
  category : Nat
  msgTypes : List MsgType
  deriving Repr, DecidableEq

structure PagerState where
  typesToChans : List (MsgType × List Nat)
  catsToChans : List (Nat × List Nat)
  deriving Repr, DecidableEq

/-- Register channel `c` under key `k` in a key→channel-set map, creating
the inner map when missing (the `chanMapForThisType == nil` branch). -/
def chanMapAdd (m : List (Nat × List Nat)) (k : Nat) (c : Nat) : List (Nat × List Nat) :=
  match m with
  | [] => [(k, [c])]
  | (k', cs) :: rest =>
    if k' = k then (k', cs ++ [c]) :: rest else (k', cs) :: chanMapAdd rest k c

/-- Embeds `eidcMessagePager.subscribeByType`: the channel is registered
under every requested message type. -/
def subscribeByType (st : PagerState) (msgTypes : List MsgType) (c : Nat) : PagerState :=
  { st with typesToChans := msgTypes.foldl (fun acc t => chanMapAdd acc t c) st.typesToChans }

/-- Embeds the category-expansion switch of
`eidcMessagePager.subscribeByCategory`. -/
def expandCategory (requested : Nat) : List Nat :=
  if requested = SubMsgCatAny then
    [SubMsgCatAnyNBReq, SubMsgCatAnyNBResp, SubMsgCatAnySBReq, SubMsgCatAnySBResp]
  else if requested = SubMsgCatAnyNB then [SubMsgCatAnyNBReq, SubMsgCatAnyNBResp]
  else if requested = SubMsgCatAnySB then [SubMsgCatAnySBReq, SubMsgCatAnySBResp]
  else if requested = SubMsgCatAnyReq then [SubMsgCatAnyNBReq, SubMsgCatAnySBReq]
  else if requested = SubMsgCatAnyResp then [SubMsgCatAnyNBResp, SubMsgCatAnySBResp]
  else [requested]

/-- Embeds `eidcMessagePager.subscribeByCategory`: registration under the
expanded category list. -/
def subscribeByCategory (st : PagerState) (requested : Nat) (c : Nat) : PagerState :=
  { st with catsToChans := (expandCategory requested).foldl (fun acc k => chanMapAdd acc k c) st.catsToChans }

/-- Embeds `eidcMessagePager.Subscribe` (pager.go lines 152-160):
`if len(info.MsgTypes) > 0` use the type path, else the category path. -/
def pagerSubscribe (st : PagerState) (info : SubInfo) (c : Nat) : PagerState :=
  if info.msgTypes.length > 0 then subscribeByType st info.msgTypes c
  else subscribeByCategory st info.category c

/-! ## Inbound relay half (part_000: Session.relayInboundHalf)

The loop body is embedded as a state-transition function over the events
it can observe on one iteration: a scanner (framer) error, or a framed
byte slice whose `ReadMsg` outcome is an error or a parsed message.
Messages are abstract records (identity plus the `Dropped` flag the loop
sets); registered manglers are id-keyed result functions.  Locks, the
pager handle and the session-state update (which never affects control
flow beyond an extra error report) are elided; the `errors`, `paged`
and `xmitted` traces record what the loop distributed on `errChan`,
delivered to the pager as dropped, and forwarded on `xmitChan`. -/

structure RMsg where
  ident : Nat
  dropped : Bool
  deriving Repr, DecidableEq

inductive InEvent where
  | scanFailure (e : Nat)
  | message (parse : Except Nat RMsg)

structure RelayState where
  terminated : Bool
  errors : List Nat
  manglers : List (Nat × (RMsg → MangleResult))
  xmitted : List RMsg
  paged : List RMsg

/-- One pass of the `for i, m := range o.manglers` loop: apply each
mangler, report `ManglerErr`, delete the mangler on `ManglerDone`, and
stop (marking the message dropped) on `ManglerDrop`.  Returns the
surviving manglers, the message, whether it was dropped, and the ids
that reported errors. -/
def runManglers (ms : List (Nat × (RMsg → MangleResult))) (msg : RMsg) :
    List (Nat × (RMsg → MangleResult)) × RMsg × Bool × List Nat :=
  match ms with
  | [] => ([], msg, false, [])
  | (i, f) :: rest =>
    let mr := f msg
    let errs := if hasFlag mr ManglerErr then [i] else []
    let kept : List (Nat × (RMsg → MangleResult)) :=
      if hasFlag mr ManglerDone then [] else [(i, f)]
    if hasFlag mr ManglerDrop then
      (kept ++ rest, { msg with dropped := true }, true, errs)
    else
      let r := runManglers rest msg
      (kept ++ r.1, r.2.1, r.2.2.1, errs ++ r.2.2.2)

/-- Embeds one iteration of the `MESSAGE` loop of `relayInboundHalf`:
a scanner error is reported and ends the session (`o.over.Done()`);
a `ReadMsg` error is reported and the loop continues; a parsed message
runs the manglers and is either paged as dropped or forwarded. -/
def relayInboundStep (st : RelayState) (ev : InEvent) : RelayState :=
  if st.terminated then st
  else
    match ev with
    | .scanFailure e => { st with errors := st.errors ++ [e], terminated := true }
    | .message (.error e) => { st with errors := st.errors ++ [e] }
    | .message (.ok msg) =>
      let r := runManglers st.manglers msg
      if r.2.2.1 then
        { st with manglers := r.1, errors := st.errors ++ r.2.2.2, paged := st.paged ++ [r.2.1] }
      else
        { st with manglers := r.1, errors := st.errors ++ r.2.2.2, xmitted := st.xmitted ++ [r.2.1] }

/-- The loop over a whole inbound event stream. -/
def relayInboundRun (st : RelayState) (evs : List InEvent) : RelayState :=
  evs.foldl relayInboundStep st

/-! ## Go net/url machinery (modelled standard-library semantics)

`seqMangler.Mangle` (mangle.go) and the injection builders (inject.go)
manipulate URL query strings through `url.ParseQuery`, `Values.Get/Set`,
`Values.Encode`, `url.QueryEscape`/`QueryUnescape` and `strconv.Atoi`.
These Go standard-library functions are modelled here character-for-byte
(the repository handles ASCII wire data; characters are interpreted as
single bytes, faithful for code points below 256). -/

def isHexDigitChar (c : Char) : Bool :=
  (48 ≤ c.toNat && c.toNat ≤ 57) || (97 ≤ c.toNat && c.toNat ≤ 102) ||
    (65 ≤ c.toNat && c.toNat ≤ 70)

def unhexChar (c : Char) : Nat :=
  if 48 ≤ c.toNat && c.toNat ≤ 57 then c.toNat - 48
  else if 97 ≤ c.toNat && c.toNat ≤ 102 then c.toNat - 97 + 10
  else if 65 ≤ c.toNat && c.toNat ≤ 70 then c.toNat - 65 + 10
  else 0

/-- Models `url.QueryUnescape` on character lists: `%XX` hex escapes are
decoded, `+` becomes space, malformed escapes are errors. -/
def queryUnescapeList : List Char → Option (List Char)
  | [] => some []
  | c :: t =>
    if c = '%' then
      match t with
      | h1 :: h2 :: t2 =>
        if isHexDigitChar h1 && isHexDigitChar h2 then
          (queryUnescapeList t2).map (fun r => Char.ofNat (16 * unhexChar h1 + unhexChar h2) :: r)
        else none
      | _ => none
    else if c = '+' then (queryUnescapeList t).map (fun r => ' ' :: r)
    else (queryUnescapeList t).map (fun r => c :: r)

/-- The characters `url.QueryEscape` leaves unescaped (alphanumerics and
`-_.~`). -/
def isUnescapedChar (c : Char) : Bool :=
  (97 ≤ c.toNat && c.toNat ≤ 122) || (65 ≤ c.toNat && c.toNat ≤ 90) ||
    (48 ≤ c.toNat && c.toNat ≤ 57) ||
    c = '-' || c = '_' || c = '.' || c = '~'

def upperHexDigit (n : Nat) : Char :=
  if n < 10 then Char.ofNat (48 + n) else Char.ofNat (55 + n)

/-- Models `url.QueryEscape` on one character (one byte on the Go side). -/
def queryEscapeChar (c : Char) : List Char :=
  if c = ' ' then ['+']
  else if isUnescapedChar c then [c]
  else ['%', upperHexDigit (c.toNat / 16), upperHexDigit (c.toNat % 16)]

/-- Escape a whole character list (the body of `url.QueryEscape`). -/
def escList (cs : List Char) : List Char :=
  (cs.map queryEscapeChar).flatten

/-- Models `url.QueryEscape`. -/
def queryEscape (s : String) : String :=
  (escList s.data).asString

/-- `url.Values` is `map[string][]string`; modelled as an association
list with unique keys in first-appearance order (the map key order only
matters through `Encode`, which sorts). -/
abbrev UrlValues := List (String × List String)

/-- `m[key] = append(m[key], value)` during query parsing. -/
def valuesAdd (vs : UrlValues) (k v : String) : UrlValues :=
  match vs with
  | [] => [(k, [v])]
  | (k', ws) :: rest =>
    if k' = k then (k', ws ++ [v]) :: rest else (k', ws) :: valuesAdd rest k v

/-- Models `Values.Get`: first value of the key, or empty string. -/
def valuesGet (vs : UrlValues) (k : String) : String :=
  match vs with
  | [] => ""
  | (k', ws) :: rest => if k' = k then ws.headD "" else valuesGet rest k

/-- Models `Values.Set`: the key maps to exactly the one value afterwards. -/
def valuesSet (vs : UrlValues) (k v : String) : UrlValues :=
  match vs with
  | [] => [(k, [v])]
  | (k', ws) :: rest =>
    if k' = k then (k', [v]) :: rest else (k', ws) :: valuesSet rest k v

/-- Split a raw query on `&` and `;`, the separators Go 1.13
`url.ParseQuery` recognises (empty segments are skipped by the parse
fold, matching the `if key == "" continue` in the source library). -/
def querySegmentsAux : List Char → List Char → List (List Char)
  | [], acc => [acc.reverse]
  | c :: t, acc =>
    if c = '&' || c = ';' then acc.reverse :: querySegmentsAux t []
    else querySegmentsAux t (c :: acc)

def querySegments (l : List Char) : List (List Char) :=
  if l = [] then [] else querySegmentsAux l []

/-- One segment of `url.ParseQuery`'s loop: split at the first `=`,
query-unescape both halves, skip the pair (recording the error) when
unescaping fails, otherwise accumulate it into the map. -/
def parseQueryStep (acc : UrlValues × Bool) (seg : List Char) : UrlValues × Bool :=
  if seg = [] then acc
  else
    let kRaw := seg.takeWhile (fun c => c ≠ '=')
    let hasEq := seg.length ≠ kRaw.length
    let vRaw := if hasEq then (seg.drop (kRaw.length + 1)) else []
    match queryUnescapeList kRaw with
    | none => (acc.1, true)
    | some k =>
      match queryUnescapeList vRaw with
      | none => (acc.1, true)
      | some v => (valuesAdd acc.1 k.asString v.asString, acc.2)

/-- Models `url.ParseQuery`.  Returns the map and whether any error
occurred (Go returns both; the mangler bails when the error is set). -/
def parseQuery (q : String) : UrlValues × Bool :=
  (querySegments q.data).foldl parseQueryStep ([], false)

/-- Byte-wise (code-point-wise) string order, the order `sort.Strings`
uses on the keys in `Values.Encode`. -/
def charListLe : List Char → List Char → Bool
  | [], _ => true
  | _ :: _, [] => false
  | a :: as, b :: bs =>
    if a = b then charListLe as bs else a.toNat < b.toNat

def stringLe (a b : String) : Bool := charListLe a.data b.data

def insertEntryByKey (e : String × List String) : UrlValues → UrlValues
  | [] => [e]
  | f :: rest =>
    if stringLe e.1 f.1 then e :: f :: rest else f :: insertEntryByKey e rest

/-- Key-sorted view of the values map (Go sorts the key slice before
encoding; keys are unique so stability is irrelevant). -/
def sortEntriesByKey (vs : UrlValues) : UrlValues :=
  vs.foldr insertEntryByKey []

/-- One `k=v` chunk of the encoded query. -/
def encSegment (k w : String) : List Char :=
  escList k.data ++ '=' :: escList w.data

/-- Join chunks with a separator character (the `&` the encoder writes
between pairs). -/
def joinSepChar (sep : Char) : List (List Char) → List Char
  | [] => []
  | p :: rest =>
    match rest with
    | [] => p
    | _ :: _ => p ++ sep :: joinSepChar sep rest

/-- Models `Values.Encode`: keys in sorted order, each key and value
escaped, `k=v` chunks joined with `&`. -/
def valuesEncode (vs : UrlValues) : String :=
  (joinSepChar '&'
    ((sortEntriesByKey vs).foldr
      (fun e acc => e.2.map (fun w => encSegment e.1 w) ++ acc) [])).asString

def isDigitChar (c : Char) : Bool := 48 ≤ c.toNat && c.toNat ≤ 57

def digitsToNat (l : List Char) : Nat :=
  l.foldl (fun acc c => 10 * acc + (c.toNat - 48)) 0

/-- Models the digit-string part of `strconv.Atoi`. -/
def digitListToNat (l : List Char) : Option Nat :=
  if l ≠ [] && l.all isDigitChar then some (digitsToNat l) else none

/-- Models `strconv.Atoi` (overflow aside, which the repository never
approaches): optional sign then decimal digits. -/
def atoiInt (s : String) : Option Int :=
  match s.data with
  | '+' :: rest => (digitListToNat rest).map Int.ofNat
  | '-' :: rest => (digitListToNat rest).map (fun n => -(n : Int))
  | l => (digitListToNat l).map Int.ofNat

def decDigitChar (n : Nat) : Char := Char.ofNat (48 + n)

/-- Decimal digits of a natural number, least significant first. -/
def natToDigitsRev (n : Nat) : List Char :=
  if h : n < 10 then [decDigitChar n]
  else decDigitChar (n % 10) :: natToDigitsRev (n / 10)
decreasing_by exact Nat.div_lt_self (by omega) (by omega)

def natToString (n : Nat) : String :=
  (natToDigitsRev n).reverse.asString

/-- Models `strconv.Itoa`. -/
def intToString (n : Int) : String :=
  if n < 0 then "-" ++ natToString n.natAbs else natToString n.toNat

/-! ## The sequence-number mangler (mangle.go lines 26-87)

`seqMangler` state is its `lastSeq int`.  The `url.Parse` round trip of
`msg.Request.URL.String()` cannot fail on a URL held by an
`http.Request` and is modelled as the identity on the (path, raw query)
pair the mangler manipulates. -/

structure SeqRequest where
  urlPath : String
  urlRawQuery : String
  deriving Repr, DecidableEq

structure SeqMessage where
  northbound : Bool
  request : Option SeqRequest
  deriving Repr, DecidableEq

/-- Shallow embedding of `seqMangler.Mangle`: returns the new `lastSeq`,
the result flags, and the (possibly rewritten) message. -/
def seqManglerMangle (lastSeq : Int) (msg : SeqMessage) : Int × MangleResult × SeqMessage :=
  if msg.northbound then (lastSeq, ManglerNoop, msg)
  else
    match msg.request with
    | none => (lastSeq, ManglerNoop, msg)
    | some req =>
      let parsed := parseQuery req.urlRawQuery
      if parsed.2 then (lastSeq, ManglerErr, msg)
      else
        let seqStr := valuesGet parsed.1 "seq"
        if seqStr = "" then (lastSeq, ManglerNoop, msg)
        else
          match atoiInt seqStr with
          | none => (lastSeq, ManglerErr, msg)
          | some seqIn =>
            let lastSeq' := lastSeq + 1
            if lastSeq' = seqIn then (lastSeq', ManglerNoop, msg)
            else
              let values' := valuesSet parsed.1 "seq" (intToString lastSeq')
              (lastSeq', ManglerSuccess,
                { msg with request := some { req with urlRawQuery := valuesEncode values' } })

/-- The seq value a southbound request presents on the wire, read back
the same way the mangler reads it (parse the query, take the first
`seq` value, convert with Atoi); none for northbound messages and
requests without a usable `seq` parameter. -/
def southboundSeqVal (msg : SeqMessage) : Option Int :=
  if msg.northbound then none
  else
    match msg.request with
    | none => none
    | some req =>
      let parsed := parseQuery req.urlRawQuery
      if parsed.2 then none
      else
        let s := valuesGet parsed.1 "seq"
        if s = "" then none else atoiInt s

/-- Run the mangler over a stream of messages as the outbound half of the
southbound relay does, collecting the emitted messages in order. -/
def runSeqMangler (lastSeq : Int) : List SeqMessage → Int × List SeqMessage
  | [] => (lastSeq, [])
  | m :: ms =>
    let r := seqManglerMangle lastSeq m
    let rest := runSeqMangler r.1 ms
    (rest.1, r.2.2 :: rest.2)

/-- A sequenced message: southbound request whose query parses, whose
first `seq` value is nonempty and numeric — the messages the mangler
renumbers. -/
def seqNumericB (m : SeqMessage) : Bool :=
  !m.northbound &&
    match m.request with
    | none => false
    | some req =>
      let parsed := parseQuery req.urlRawQuery
      !parsed.2 &&
        (valuesGet parsed.1 "seq" ≠ "" && (atoiInt (valuesGet parsed.1 "seq")).isSome)

/-- A message the mangler leaves alone for lack of a `seq` parameter:
northbound, request-less, or a southbound request whose query parses with
no (or an empty) `seq` value. -/
def seqFreeB (m : SeqMessage) : Bool :=
  m.northbound ||
    match m.request with
    | none => true
    | some req =>
      let parsed := parseQuery req.urlRawQuery
      !parsed.2 && valuesGet parsed.1 "seq" = ""

/-- A message the mangler reports as an error and emits unchanged: a
southbound request whose query fails to parse, or whose nonempty first
`seq` value is not `strconv.Atoi`-parsable. -/
def seqErrB (m : SeqMessage) : Bool :=
  !m.northbound &&
    match m.request with
    | none => false
    | some req =>
      let parsed := parseQuery req.urlRawQuery
      (parsed.2 || (valuesGet parsed.1 "seq" ≠ "" && (atoiInt (valuesGet parsed.1 "seq")).isNone))

/-- All characters of the raw query are single bytes (below 256), the
regime in which the character-list model of Go's byte strings is exact. -/
def latin1B (m : SeqMessage) : Bool :=
  match m.request with
  | none => true
  | some req => req.urlRawQuery.data.all (fun c => c.toNat < 256)

def countSequenced (msgs : List SeqMessage) : Nat := msgs.countP seqNumericB

/-- The (key, value) pairs of a values map, in entry order. -/
def pairsOf (vs : UrlValues) : List (String × String) :=
  (vs.map (fun e => e.2.map (fun w => (e.1, w)))).flatten

/-- The value list of the first entry with the given key. -/
def entryListOf (vs : UrlValues) (k : String) : Option (List String) :=
  match vs with
  | [] => none
  | (k', ws) :: rest => if k' = k then some ws else entryListOf rest k

/-! ## Byte-level HTTP framing (certificate.go: SplitHttpMsg, getContentLength)

Raw wire data is a byte stream; bytes are modelled as Nat. -/

def strBytes (s : String) : List Nat := s.data.map Char.toNat

def crlfcrlfBytes : List Nat := [13, 10, 13, 10]

/-- `unicode.IsSpace` on a byte widened to a rune: the Latin-1 white
space code points. -/
def isSpaceByte (b : Nat) : Bool :=
  b = 9 || b = 10 || b = 11 || b = 12 || b = 13 || b = 32 || b = 133 || b = 160

def dropTrailCR (l : List Nat) : List Nat :=
  if l.getLast? = some 13 then l.dropLast else l

/-- Models `bufio.ScanLines`, the split function `getContentLength` and
the impersonation routines scan headers with: split at `\n`, drop one
trailing `\r` per line, final unterminated line still emitted, nothing
after a terminating final newline. -/
def scanLinesAux : List Nat → List Nat → List (List Nat)
  | [], acc => [dropTrailCR acc.reverse]
  | b :: rest, acc =>
    if b = 10 then
      dropTrailCR acc.reverse ::
        (match rest with
         | [] => []
         | _ :: _ => scanLinesAux rest [])
    else scanLinesAux rest (b :: acc)

def scanLines (l : List Nat) : List (List Nat) :=
  if l = [] then [] else scanLinesAux l []

def lowerByte (b : Nat) : Nat := if 65 ≤ b ∧ b ≤ 90 then b + 32 else b

def isDigitByte (b : Nat) : Bool := 48 ≤ b && b ≤ 57

/-- Models `regexp.MustCompile("[0-9]+").Find`: the first maximal digit
run of the line, if any. -/
def findDigitRun : List Nat → Option (List Nat)
  | [] => none
  | b :: t =>
    if isDigitByte b then some ((b :: t).takeWhile isDigitByte) else findDigitRun t

def digitRunToNat (l : List Nat) : Nat :=
  l.foldl (fun a b => 10 * a + (b - 48)) 0

def contentLengthHeaderBytes : List Nat := strBytes "content-length:"

/-- Embeds `getContentLength` (certificate.go lines 690-705): scan the
header lines; every line whose lowercasing starts with `content-length:`
overwrites the result with its first digit run (`none` models the
`strconv.Atoi` error when the line has no digits); `-1` when no line
matches. -/
def getContentLength (hdr : List Nat) : Option Int :=
  (scanLines hdr).foldl
    (fun st line =>
      if contentLengthHeaderBytes.isPrefixOf (line.map lowerByte) then
        match findDigitRun line with
        | none => none
        | some ds => some (Int.ofNat (digitRunToNat ds))
      else st)
    (some (-1))

/-- Models `bytes.Index`: index of the first occurrence of `pat`. -/
def indexOfSub : List Nat → List Nat → Option Nat
  | l, pat =>
    if pat.isPrefixOf l then some 0
    else
      match l with
      | [] => none
      | _ :: t => (indexOfSub t pat).map (· + 1)

/-- Length of the leading whitespace run (the `buggyExtraGarbage` loop). -/
def spaceRun : List Nat → Nat
  | [] => 0
  | b :: t => if isSpaceByte b then spaceRun t + 1 else 0

inductive SplitResult where
  | needMore
  | splitFailure
  | token (advance : Nat) (tok : List Nat)
  deriving Repr, DecidableEq

/-- Embeds `SplitHttpMsg` (certificate.go lines 649-688): find the first
CRLFCRLF, read the Content-Length from the header region (`-1` when the
header has none), wait for `headerSize+contentLength` buffered bytes,
then also consume the following whitespace run (the eIDCListener
stray-newline workaround).  `splitFailure` is the `getContentLength`
error return; `needMore` is the `(0, nil, nil)` ask-for-more-data
return (`atEOF` is ignored by the source). -/
def SplitHttpMsg (data : List Nat) : SplitResult :=
  match indexOfSub data crlfcrlfBytes with
  | none => .needMore
  | some i =>
    let headerSize := i + 4
    match getContentLength (data.take headerSize) with
    | none => .splitFailure
    | some contentLength =>
      if (headerSize : Int) + contentLength > (data.length : Int) then .needMore
      else
        let base := ((headerSize : Int) + contentLength).toNat
        let g := spaceRun (data.drop base)
        .token (base + g) (data.take (base + g))

/-- Drives `SplitHttpMsg` the way `bufio.Scanner` does against a fully
buffered stream: emit tokens while the split function advances; stop on
`needMore` (end of data: the scanner's `Scan` returns false at EOF) or
on a split error.  The fuel argument bounds the recursion; every emitted
token consumes at least three bytes, so `length + 1` fuel suffices. -/
def frameLoop : Nat → List Nat → List (List Nat)
  | 0, _ => []
  | fuel + 1, data =>
    match SplitHttpMsg data with
    | .token a t => t :: frameLoop fuel (data.drop a)
    | _ => []

def frameAll (data : List Nat) : List (List Nat) :=
  frameLoop (data.length + 1) data

/-- A well-formed wire message for the framer-completeness property:
nonempty, starts with a non-whitespace byte (HTTP method letter or `H`),
its first CRLFCRLF ends its header region, and its length is exactly the
header plus the declared Content-Length (no body at all when the header
declares none). -/
def wellFormedHttpMsg (m : List Nat) : Bool :=
  match m.head? with
  | none => false
  | some b =>
    !isSpaceByte b &&
      match indexOfSub m crlfcrlfBytes with
      | none => false
      | some i =>
        let headerSize := i + 4
        match getContentLength (m.take headerSize) with
        | none => false
        | some cl =>
          if cl = -1 then decide (m.length = headerSize)
          else decide ((m.length : Int) = (headerSize : Int) + cl)

/-! ## Impersonation: header reordering (part_009)

`impersonateEIDC32Request` splits the header region into lines, applies
the rewrite table, and runs `sort.Sort(eidc32RequestHeaderSort(h))`.
Go 1.13's `sort.Sort` on a slice of at most 12 elements is exactly one
gap-6 shell pass followed by insertion sort; both are modelled below
(header blocks beyond 12 lines would take the quicksort path, which is
not modelled — all theorems stay within the faithful regime). -/

def eidc32RequestHeaderOrder : List (List Nat) :=
  [strBytes "POST ", strBytes "Host: ", strBytes "Content-Type: ",
   strBytes "Content-Length: ", strBytes "ServerKey:"]

/-- Embeds `eidc32RequestHeaderSort.Less` (part_009 lines 78-88): walk
the ordering table; the first side matching the current entry wins;
`true` when neither side matches any entry. -/
def goLessOrder (order : List (List Nat)) (s t : List Nat) : Bool :=
  match order with
  | [] => true
  | m :: rest =>
    if (m.map lowerByte).isPrefixOf (s.map lowerByte) then true
    else if (m.map lowerByte).isPrefixOf (t.map lowerByte) then false
    else goLessOrder rest s t

def eidc32RequestLess (s t : List Nat) : Bool :=
  goLessOrder eidc32RequestHeaderOrder s t

/-- Insert `x` into the reversed already-sorted prefix by bubbling past
every `y` with `less x y`, exactly the inner loop of Go's
`insertionSort` (`for j := i; j > a && data.Less(j, j-1); j--`). -/
def bubbleInsRev (less : α → α → Bool) (x : α) : List α → List α
  | [] => [x]
  | y :: ys => if less x y then y :: bubbleInsRev less x ys else x :: y :: ys

/-- Go's `insertionSort`: fold the slice left to right, bubbling each
element down into the sorted prefix. -/
def goInsertionSort (less : α → α → Bool) (l : List α) : List α :=
  (l.foldl (fun accRev x => bubbleInsRev less x accRev) []).reverse

/-- The single gap-6 shell pass Go's `quickSort` performs before
insertion sort on slices of at most 12 elements. -/
def shellPass (less : α → α → Bool) (l : List α) : List α :=
  (List.range l.length).foldl
    (fun arr i =>
      if 6 ≤ i then
        match arr.get? i, arr.get? (i - 6) with
        | some x, some y => if less x y then (arr.set i y).set (i - 6) x else arr
        | _, _ => arr
      else arr) l

/-- Go 1.13 `sort.Sort` restricted to slices of at most 12 elements. -/
def goSortSmall (less : α → α → Bool) (l : List α) : List α :=
  goInsertionSort less (shellPass less l)

/-- Embeds `doEIDC32RequestHeaderRewrite`: the one-entry rewrite table
`Serverkey:` → `ServerKey:`. -/
def doEIDC32RequestHeaderRewrite (line : List Nat) : List Nat :=
  if (strBytes "Serverkey:").isPrefixOf line then
    strBytes "ServerKey:" ++ line.drop 10
  else line

/-- Embeds `impersonateEIDC32Request` (part_009 lines 189-212):
`headerEnd` is `bytes.Index(in, CRLFCRLF) + 2` (so the header region
keeps the first CRLF of the terminator); the header lines are rewritten,
re-terminated with CRLF, sorted with `sort.Sort`, and re-joined in front
of the remaining input. -/
def impersonateEIDC32Request (input : List Nat) : Option (List Nat) :=
  let idx : Int := match indexOfSub input crlfcrlfBytes with | none => -1 | some i => (i : Int)
  let headerEnd : Int := idx + 2
  if headerEnd ≤ 0 then none
  else
    let h := (scanLines (input.take headerEnd.toNat)).map
      (fun line => doEIDC32RequestHeaderRewrite line ++ [13, 10])
    let sorted := goSortSmall eidc32RequestLess h
    some (sorted.flatten ++ input.drop headerEnd.toNat)

/-- Rank of a header line in the eIDC32 request ordering table: index of
the first matching entry, table length (5) when none matches. -/
def headerRank (order : List (List Nat)) (s : List Nat) : Nat :=
  match order with
  | [] => 0
  | m :: rest =>
    if (m.map lowerByte).isPrefixOf (s.map lowerByte) then 0
    else headerRank rest s + 1

def eidc32Rank (s : List Nat) : Nat := headerRank eidc32RequestHeaderOrder s

/-- A header line that matches some entry of the ordering table. -/
def eidc32Matched (s : List Nat) : Bool :=
  eidc32Rank s < eidc32RequestHeaderOrder.length

/-- One step of the gap-6 shell pass (named form of the `shellPass`
fold function). -/
def shellStep (less : α → α → Bool) (arr : List α) (i : Nat) : List α :=
  if 6 ≤ i then
    match arr.get? i, arr.get? (i - 6) with
    | some x, some y => if less x y then (arr.set i y).set (i - 6) x else arr
    | _, _ => arr
  else arr

/-- Rank buckets in descending rank order: the shape of the reversed
accumulator Go insertion sort maintains under a rank comparator. -/
def bucketsRev (rank : α → Nat) (p : List α) : Nat → List α
  | 0 => p.filter (fun s => decide (rank s = 0))
  | r + 1 => p.filter (fun s => decide (rank s = r + 1)) ++ bucketsRev rank p r

/-- Rank buckets in ascending rank order, each bucket holding its
elements in reverse input order: the exact output shape of Go 1.13
insertion sort under a reflexive rank comparator. -/
def bucketsFwd (rank : α → Nat) (p : List α) : Nat → List α
  | 0 => (p.filter (fun s => decide (rank s = 0))).reverse
  | r + 1 => bucketsFwd rank p r ++ (p.filter (fun s => decide (rank s = r + 1))).reverse

/-! ## Heartbeat injection builder (inject.go: NewHeartbeatMsg;
message_common.go: Message.marshalRequest)

`NewHeartbeatMsg` builds the query with `url.Values.Set`/`Encode`, the
URL from fixed scheme/host/path, and a GET `http.Request` carrying only
a `User-Agent` header (its error return is only reachable from
`http.NewRequest`, which cannot fail on this fixed method and URL).
`marshalRequest` re-pins the user agent and calls `http.Request.Write`,
whose output for a body-less GET is the request line with
`URL.RequestURI()`, the `Host` header from `URL.Host`, the `User-Agent`
header, and the blank line. -/

structure HbRequest where
  method : String
  urlHost : String
  urlPath : String
  urlRawQuery : String
  userAgent : String
  deriving Repr, DecidableEq

def NewHeartbeatMsg (username password : String) : HbRequest :=
  let values := valuesSet (valuesSet (valuesSet [] "username" username) "password" password)
    "seq" "0"
  { method := "GET"
    urlHost := "192.168.6.40"
    urlPath := "/eidc/heartbeat"
    urlRawQuery := valuesEncode values
    userAgent := "eIDCListener" }

/-- Models `Message.marshalRequest` (`http.Request.Write`) for the
body-less GET requests the heartbeat builder produces. -/
def marshalHbRequest (r : HbRequest) : String :=
  r.method ++ " " ++ r.urlPath ++
    (if r.urlRawQuery = "" then "" else "?" ++ r.urlRawQuery) ++ " HTTP/1.1\r\n" ++
    "Host: " ++ r.urlHost ++ "\r\n" ++
    "User-Agent: " ++ r.userAgent ++ "\r\n" ++ "\r\n"

/-! # Theorems -/

/-! ## C2 — DropMessageByType drops nothing (code bug) -/

/-- C2: the claim (and the spec's documented OR intent) says a registered
`DropMessageByType` with `Remaining = 1` drops the next matching message
and removes itself.  The code combines its result flags with bitwise AND
on a zero-initialised variable, so on a matching message it returns the
empty flag set: no `ManglerDrop`, no `ManglerDone` — the message passes
through and the transformer stays registered (its `Remaining` still
decrements).  This theorem evaluates the embedded code at the failing
input, exhibiting the divergence. -/
theorem c2_dropMessageByType_flags_empty :
    DropMessageByType.mangle
        { DropType := MsgTypeHeartbeatRequest, Remaining := 1 } MsgTypeHeartbeatRequest
      = ({ DropType := MsgTypeHeartbeatRequest, Remaining := 0 }, 0)
    ∧ hasFlag 0 ManglerDrop = false ∧ hasFlag 0 ManglerDone = false := by
  decide

/-! ## C7 — server-key history -/

/-- C7: the session's server-key history is append-only: processing a
ConnectedResponse key appends it exactly when it differs from the current
last entry, never modifying existing entries (the history is always a
prefix of its successor); starting from the login-time key `k0`, the run
`k1, k2, k2, k3` (each differing from its predecessor in the history)
yields `[k0, k1, k2, k3]`. -/
theorem c7_serverKeys_history :
    (∀ (hist keys : List String), hist <+: updateServerKeysRun hist keys)
    ∧ (∀ (hist : List String) (k : String),
        updateServerKeys hist k = if hist.getLastD "" = k then hist else hist ++ [k])
    ∧ (∀ k0 k1 k2 k3 : String, k1 ≠ k0 → k2 ≠ k1 → k3 ≠ k2 →
        updateServerKeysRun [k0] [k1, k2, k2, k3] = [k0, k1, k2, k3]) := by
  refine ⟨?_, ?_, ?_⟩
  · intro hist keys
    induction keys generalizing hist with
    | nil => exact List.prefix_rfl
    | cons k ks ih =>
      refine List.IsPrefix.trans ?_ (ih (updateServerKeys hist k))
      unfold updateServerKeys
      split
      · exact List.prefix_append hist [k]
      · exact List.prefix_rfl
  · intro hist k
    by_cases hk : hist.getLastD "" = k <;> simp [updateServerKeys, hk]
  · intro k0 k1 k2 k3 h1 h2 h3
    have g1 : updateServerKeys [k0] k1 = [k0, k1] := by
      unfold updateServerKeys
      rw [if_pos (by simpa using Ne.symm h1)]
      rfl
    have g2 : updateServerKeys [k0, k1] k2 = [k0, k1, k2] := by
      unfold updateServerKeys
      rw [if_pos (by simpa using Ne.symm h2)]
      rfl
    have g3 : updateServerKeys [k0, k1, k2] k2 = [k0, k1, k2] := by
      unfold updateServerKeys
      rw [if_neg (by simp)]
    have g4 : updateServerKeys [k0, k1, k2] k3 = [k0, k1, k2, k3] := by
      unfold updateServerKeys
      rw [if_pos (by simpa using Ne.symm h3)]
      rfl
    show updateServerKeys (updateServerKeys (updateServerKeys (updateServerKeys [k0] k1) k2) k2) k3 = _
    rw [g1, g2, g3, g4]

/-- C7 witness: the history theorem instantiated at concrete keys. -/
theorem c7_serverKeys_history_witness :
    updateServerKeysRun ["K0"] ["K1", "K2", "K2", "K3"] = ["K0", "K1", "K2", "K3"] :=
  c7_serverKeys_history.2.2 "K0" "K1" "K2" "K3" (by decide) (by decide) (by decide)

/-! ## C6 — southbound response typing -/

/-- C6: a southbound response message is typed `ConnectedResponse` iff its
status is `200 OK`, its content type is `application/json`, and its body
unmarshals as JSON with a nonempty `serverKey`; in every other case the
southbound typer yields `Unknown`. -/
theorem c6_southboundResponseType (m : GoMessage) (r : GoResponse)
    (hreq : m.request = none) (hresp : m.response = some r) :
    (getSouthboundMsgType m = MsgTypeConnectedResponse ↔
      (r.status = "200 OK" ∧ r.contentTypeVal = "application/json" ∧
        ∃ c, m.bodyConnected = some c ∧ c.serverKey ≠ ""))
    ∧ (getSouthboundMsgType m = MsgTypeConnectedResponse ∨
        getSouthboundMsgType m = MsgTypeUnknown) := by
  have hct : m.contentTypeOf = r.contentTypeVal := by
    simp [GoMessage.contentTypeOf, hreq, hresp]
  have hmain : getSouthboundMsgType m = getSouthboundResponseType m r := by
    simp [getSouthboundMsgType, hreq, hresp]
  rw [hmain]
  unfold getSouthboundResponseType
  rw [hct]
  by_cases hs : r.status = "200 OK" <;>
    by_cases hc : r.contentTypeVal = "application/json" <;>
      rcases hb : m.bodyConnected with _ | c
  all_goals
    first
      | (by_cases hk : c.serverKey = "" <;>
          simp [hs, hc, hk, MsgTypeConnectedResponse, MsgTypeUnknown])
      | simp [hs, hc, MsgTypeConnectedResponse, MsgTypeUnknown]

/-- C6 witness: a concrete 200/json/serverKey response computes to
`ConnectedResponse` via the characterisation. -/
theorem c6_southboundResponseType_witness :
    getSouthboundMsgType
      { northbound := false, request := none,
        response := some { status := "200 OK", contentTypeVal := "application/json" },
        bodyConnected := some { serverKey := "abc" }, bodyEidc := none, mtype := 0 }
      = MsgTypeConnectedResponse :=
  (c6_southboundResponseType _ _ rfl rfl).1.mpr
    ⟨rfl, rfl, ⟨{ serverKey := "abc" }, rfl, by decide⟩⟩

/-! ## C9 — pager subscription keying -/

/-- C9: when a subscription's `MsgTypes` list is nonempty the pager
registers the channel only in the type map and the `Category` field is
ignored entirely; the category is consulted only when `MsgTypes` is
empty, and an atomic or unrecognised category expands to itself. -/
theorem c9_pagerSubscribe (st : PagerState) (info : SubInfo) (c : Nat) :
    (info.msgTypes ≠ [] →
      (pagerSubscribe st info c).catsToChans = st.catsToChans ∧
      (∀ cat, pagerSubscribe st { info with category := cat } c = pagerSubscribe st info c))
    ∧ (info.msgTypes = [] →
      (pagerSubscribe st info c).typesToChans = st.typesToChans ∧
      pagerSubscribe st info c = subscribeByCategory st info.category c)
    ∧ (∀ cat, cat ≠ SubMsgCatAny → cat ≠ SubMsgCatAnyNB → cat ≠ SubMsgCatAnySB →
        cat ≠ SubMsgCatAnyReq → cat ≠ SubMsgCatAnyResp → expandCategory cat = [cat]) := by
  refine ⟨?_, ?_, ?_⟩
  · intro hne
    have hlen : info.msgTypes.length > 0 := List.length_pos.mpr hne
    constructor
    · simp [pagerSubscribe, if_pos hlen, subscribeByType]
    · intro cat
      simp [pagerSubscribe, if_pos hlen, subscribeByType]
  · intro hnil
    rw [pagerSubscribe, if_neg (by simp [hnil])]
    exact ⟨by simp [subscribeByCategory], rfl⟩
  · intro cat h0 h1 h4 h7 h8
    unfold expandCategory
    rw [if_neg h0, if_neg h1, if_neg h4, if_neg h7, if_neg h8]

/-- C9 witness: the keying facts instantiated at a concrete state and
subscription. -/
theorem c9_pagerSubscribe_witness :
    (pagerSubscribe { typesToChans := [], catsToChans := [(3, [9])] }
        { category := SubMsgCatAny, msgTypes := [MsgTypeEventRequest] } 5).catsToChans
      = [(3, [9])]
    ∧ expandCategory SubMsgCatAnySBReq = [SubMsgCatAnySBReq] :=
  ⟨((c9_pagerSubscribe { typesToChans := [], catsToChans := [(3, [9])] }
      { category := SubMsgCatAny, msgTypes := [MsgTypeEventRequest] } 5).1 (by decide)).1,
   (c9_pagerSubscribe { typesToChans := [], catsToChans := [] }
      { category := 0, msgTypes := [] } 0).2.2 SubMsgCatAnySBReq
      (by decide) (by decide) (by decide) (by decide) (by decide)⟩

/-! ## C10 — stored message type is authoritative -/

/-- C10: `GetType` returns the stored type whenever it is nonzero, so no
mutation of a message's request, response or body changes the type under
which it is routed; derivation from direction and content happens only
while the stored type is the zero value (`Unknown`). -/
theorem c10_getType_fixed (m : GoMessage) :
    (m.mtype ≠ 0 →
      m.getType = m.mtype ∧
      ∀ (req : Option GoRequest) (resp : Option GoResponse)
        (bc : Option ConnectedResponseData) (be : Option EIDCBodyResponseData),
        ({ m with request := req, response := resp,
                  bodyConnected := bc, bodyEidc := be } : GoMessage).getType = m.mtype)
    ∧ (m.mtype = 0 →
      m.getType = if m.northbound then getNorthboundType m else getSouthboundMsgType m) := by
  constructor
  · intro h
    constructor
    · simp [GoMessage.getType, h]
    · intro req resp bc be
      simp [GoMessage.getType, h]
  · intro h
    simp [GoMessage.getType, h]

/-- C10 witness: a stored `EventRequest` type survives replacing the
request, response and body-parse fields. -/
theorem c10_getType_fixed_witness :
    ({ northbound := true, request := none,
       response := some { status := "200 OK", contentTypeVal := "application/json" },
       bodyConnected := none, bodyEidc := some { cmd := "HEARTBEAT" },
       mtype := MsgTypeEventRequest } : GoMessage).getType = MsgTypeEventRequest :=
  ((c10_getType_fixed
      { northbound := true,
        request := some ⟨"POST", "/eidc/event", "/eidc/event", "application/json"⟩,
        response := none, bodyConnected := none, bodyEidc := none,
        mtype := MsgTypeEventRequest }).1 (by decide)).2
    none (some { status := "200 OK", contentTypeVal := "application/json" })
    none (some { cmd := "HEARTBEAT" })

/-! ## C8 — heartbeat builder byte-exactness -/

/-- C8: `NewHeartbeatMsg("admin","admin")` (whose error return is
unreachable) marshals to exactly the expected wire bytes: alphabetically
ordered query parameters, fixed host, no body. -/
theorem c8_heartbeat_builder :
    marshalHbRequest (NewHeartbeatMsg "admin" "admin")
      = "GET /eidc/heartbeat?password=admin&seq=0&username=admin HTTP/1.1\r\nHost: 192.168.6.40\r\nUser-Agent: eIDCListener\r\n\r\n" := by
  decide

/-! ## C4 — error handling in the inbound relay half -/

/-- C4 counterexample: the claim states that on a framer (scanner) error
the relay continues and the session is not terminated; in the code the
scanner-error branch fires `o.over.Done()` and returns, terminating the
session.  Evaluated at a concrete live state and scan error. -/
theorem c4_framer_error_terminates :
    (relayInboundStep
        { terminated := false, errors := [], manglers := [], xmitted := [], paged := [] }
        (.scanFailure 7)).terminated = true
    ∧ (relayInboundStep
        { terminated := false, errors := [], manglers := [], xmitted := [], paged := [] }
        (.scanFailure 7)).errors = [7] := by
  constructor <;> rfl

/-- C4 amended: a parse (`ReadMsg`) error is reported to the error
fan-out, the offending bytes are not transmitted, and the relay keeps
running (a subsequent well-parsed message is still forwarded); a framer
error is reported and terminates the session. -/
theorem c4_error_handling (st : RelayState) (e : Nat) (h : st.terminated = false) :
    relayInboundStep st (.message (.error e)) = { st with errors := st.errors ++ [e] }
    ∧ relayInboundStep st (.scanFailure e)
      = { st with errors := st.errors ++ [e], terminated := true }
    ∧ (st.manglers = [] → ∀ msg : RMsg,
        (relayInboundRun st [.message (.error e), .message (.ok msg)]).xmitted
          = st.xmitted ++ [msg]) := by
  refine ⟨?_, ?_, ?_⟩
  · simp [relayInboundStep, h]
  · simp [relayInboundStep, h]
  · intro hm msg
    simp [relayInboundRun, relayInboundStep, h, hm, runManglers]

/-! ## Query-string helper lemmas (toward C1) -/

theorem charToNat_ofNat_lt {n : Nat} (h : n < 256) : (Char.ofNat n).toNat = n := by
  unfold Char.ofNat
  split
  · rfl
  · rename_i hh
    exact absurd (Or.inl (by omega)) hh

theorem charOfNat_ne_of_code {n : Nat} {c : Char} (h : n < 256) (hc : c.toNat ≠ n) :
    Char.ofNat n ≠ c := by
  intro he
  exact hc (by rw [← he, charToNat_ofNat_lt h])

theorem unhex_upperHexDigit {k : Nat} (h : k < 16) :
    unhexChar (upperHexDigit k) = k ∧ isHexDigitChar (upperHexDigit k) = true := by
  interval_cases k <;> exact ⟨by decide, by decide⟩

theorem queryUnescape_cons_plus (t : List Char) :
    queryUnescapeList ('+' :: t) = (queryUnescapeList t).map (fun r => ' ' :: r) := by
  rw [queryUnescapeList.eq_def]
  simp

theorem queryUnescape_cons_plain {c : Char} (h1 : c ≠ '%') (h2 : c ≠ '+') (t : List Char) :
    queryUnescapeList (c :: t) = (queryUnescapeList t).map (fun r => c :: r) := by
  rw [queryUnescapeList.eq_def]
  simp [h1, h2]

theorem queryUnescape_cons_pct (h1 h2 : Char) (t : List Char) :
    queryUnescapeList ('%' :: h1 :: h2 :: t) =
      if isHexDigitChar h1 && isHexDigitChar h2 then
        (queryUnescapeList t).map (fun r => Char.ofNat (16 * unhexChar h1 + unhexChar h2) :: r)
      else none := by
  rw [queryUnescapeList.eq_def]
  simp

theorem unescape_escapeChar {c : Char} (h : c.toNat < 256) (rest : List Char) :
    queryUnescapeList (queryEscapeChar c ++ rest) =
      (queryUnescapeList rest).map (fun r => c :: r) := by
  unfold queryEscapeChar
  by_cases hsp : c = ' '
  · subst hsp
    rw [if_pos rfl]
    exact queryUnescape_cons_plus rest
  · rw [if_neg hsp]
    by_cases hu : isUnescapedChar c
    · rw [if_pos hu]
      have h1 : c ≠ '%' := by
        intro he; subst he; exact absurd hu (by decide)
      have h2 : c ≠ '+' := by
        intro he; subst he; exact absurd hu (by decide)
      exact queryUnescape_cons_plain h1 h2 rest
    · rw [if_neg hu]
      have hd1 := unhex_upperHexDigit (k := c.toNat / 16) (by omega)
      have hd2 := unhex_upperHexDigit (k := c.toNat % 16) (by omega)
      show queryUnescapeList ('%' :: upperHexDigit (c.toNat / 16) ::
        upperHexDigit (c.toNat % 16) :: rest) = _
      rw [queryUnescape_cons_pct]
      rw [if_pos (by rw [hd1.2, hd2.2]; rfl)]
      rw [hd1.1, hd2.1]
      have hv : 16 * (c.toNat / 16) + c.toNat % 16 = c.toNat := by omega
      rw [hv, Char.ofNat_toNat]

theorem unescape_escList (cs : List Char) (h : ∀ c ∈ cs, c.toNat < 256) (rest : List Char) :
    queryUnescapeList (escList cs ++ rest) =
      (queryUnescapeList rest).map (fun r => cs ++ r) := by
  induction cs with
  | nil =>
    simp only [escList, List.map_nil, List.flatten_nil, List.nil_append]
    cases queryUnescapeList rest <;> rfl
  | cons c cs' ih =>
    have hc : c.toNat < 256 := h c (List.mem_cons_self c cs')
    have hcs : ∀ x ∈ cs', x.toNat < 256 := fun x hx => h x (List.mem_cons_of_mem c hx)
    show queryUnescapeList ((queryEscapeChar c ++ escList cs') ++ rest) = _
    rw [List.append_assoc, unescape_escapeChar hc, ih hcs]
    cases queryUnescapeList rest <;> rfl

theorem unescape_escList_closed (cs : List Char) (h : ∀ c ∈ cs, c.toNat < 256) :
    queryUnescapeList (escList cs) = some cs := by
  have := unescape_escList cs h []
  simpa [queryUnescapeList] using this

theorem upperHexDigit_notSep {k : Nat} (h : k < 16) :
    upperHexDigit k ≠ '&' ∧ upperHexDigit k ≠ ';' ∧ upperHexDigit k ≠ '=' := by
  interval_cases k <;> exact ⟨by decide, by decide, by decide⟩

theorem escapeChar_notSep {c : Char} (h : c.toNat < 256) :
    ∀ x ∈ queryEscapeChar c, x ≠ '&' ∧ x ≠ ';' ∧ x ≠ '=' := by
  intro x hx
  unfold queryEscapeChar at hx
  by_cases hsp : c = ' '
  · rw [if_pos hsp] at hx
    simp at hx
    subst hx
    exact ⟨by decide, by decide, by decide⟩
  · rw [if_neg hsp] at hx
    by_cases hu : isUnescapedChar c
    · rw [if_pos hu] at hx
      simp at hx
      subst hx
      refine ⟨?_, ?_, ?_⟩ <;> (intro he; subst he; exact absurd hu (by decide))
    · rw [if_neg hu] at hx
      simp at hx
      rcases hx with hx | hx | hx
      · subst hx; exact ⟨by decide, by decide, by decide⟩
      · subst hx; exact upperHexDigit_notSep (by omega)
      · subst hx; exact upperHexDigit_notSep (by omega)

theorem escList_notSep {cs : List Char} (h : ∀ c ∈ cs, c.toNat < 256) :
    ∀ x ∈ escList cs, x ≠ '&' ∧ x ≠ ';' ∧ x ≠ '=' := by
  intro x hx
  unfold escList at hx
  rw [List.mem_flatten] at hx
  obtain ⟨l, hl, hxl⟩ := hx
  rw [List.mem_map] at hl
  obtain ⟨c, hc, rfl⟩ := hl
  exact escapeChar_notSep (h c hc) x hxl

theorem querySegmentsAux_stop {p : List Char} (hp : ∀ c ∈ p, c ≠ '&' ∧ c ≠ ';') :
    ∀ acc, querySegmentsAux p acc = [acc.reverse ++ p] := by
  induction p with
  | nil => intro acc; simp [querySegmentsAux]
  | cons c p' ih =>
    intro acc
    have hc := hp c (List.mem_cons_self c p')
    have hcond : (c = '&' || c = ';') = false := by
      simp [hc.1, hc.2]
    rw [querySegmentsAux, hcond]
    simp only [Bool.false_eq_true, if_false]
    rw [ih (fun x hx => hp x (List.mem_cons_of_mem c hx)) (c :: acc)]
    simp

theorem querySegmentsAux_sep {p : List Char} (hp : ∀ c ∈ p, c ≠ '&' ∧ c ≠ ';')
    (rest : List Char) :
    ∀ acc, querySegmentsAux (p ++ '&' :: rest) acc
      = (acc.reverse ++ p) :: querySegmentsAux rest [] := by
  induction p with
  | nil =>
    intro acc
    rw [List.nil_append, querySegmentsAux]
    simp
  | cons c p' ih =>
    intro acc
    have hc := hp c (List.mem_cons_self c p')
    have hcond : (c = '&' || c = ';') = false := by
      simp [hc.1, hc.2]
    rw [List.cons_append, querySegmentsAux, hcond]
    simp only [Bool.false_eq_true, if_false]
    rw [ih (fun x hx => hp x (List.mem_cons_of_mem c hx)) (c :: acc)]
    simp

theorem joinSepChar_ne_nil {q : List Char} (hq : q ≠ []) (rest : List (List Char)) :
    joinSepChar '&' (q :: rest) ≠ [] := by
  cases rest with
  | nil => simpa [joinSepChar] using hq
  | cons r rest' =>
    show q ++ '&' :: joinSepChar '&' (r :: rest') ≠ []
    simp

theorem querySegments_join (parts : List (List Char))
    (hne : ∀ p ∈ parts, p ≠ [])
    (hsep : ∀ p ∈ parts, ∀ c ∈ p, c ≠ '&' ∧ c ≠ ';') (hparts : parts ≠ []) :
    querySegments (joinSepChar '&' parts) = parts := by
  induction parts with
  | nil => exact absurd rfl hparts
  | cons p rest ih =>
    have hpne := hne p (List.mem_cons_self p rest)
    have hpsep := hsep p (List.mem_cons_self p rest)
    cases rest with
    | nil =>
      show querySegments p = [p]
      rw [querySegments, if_neg hpne, querySegmentsAux_stop hpsep]
      simp
    | cons q rest' =>
      have hqne : q ≠ [] := hne q (by simp)
      have hjoin : joinSepChar '&' (p :: q :: rest') = p ++ '&' :: joinSepChar '&' (q :: rest') :=
        rfl
      rw [querySegments, hjoin]
      rw [if_neg (by simp [hpne])]
      rw [querySegmentsAux_sep hpsep _ []]
      have hrec : querySegmentsAux (joinSepChar '&' (q :: rest')) [] =
          querySegments (joinSepChar '&' (q :: rest')) := by
        rw [querySegments, if_neg (joinSepChar_ne_nil hqne rest')]
      rw [List.reverse_nil, List.nil_append, hrec,
        ih (fun x hx => hne x (List.mem_cons_of_mem p hx))
          (fun x hx => hsep x (List.mem_cons_of_mem p hx)) (by simp)]

theorem takeWhile_append_stop {p : α → Bool} {l₁ : List α} (h : ∀ x ∈ l₁, p x = true)
    {c : α} (hc : p c = false) (l₂ : List α) :
    (l₁ ++ c :: l₂).takeWhile p = l₁ := by
  induction l₁ with
  | nil => simp [List.takeWhile_cons, hc]
  | cons a l' ih =>
    rw [List.cons_append, List.takeWhile_cons, h a (List.mem_cons_self a l'),
      ih (fun x hx => h x (List.mem_cons_of_mem a hx))]
    simp

theorem drop_len_succ (l₁ : List α) (c : α) (l₂ : List α) :
    (l₁ ++ c :: l₂).drop (l₁.length + 1) = l₂ := by
  have h : l₁ ++ c :: l₂ = (l₁ ++ [c]) ++ l₂ := by simp
  rw [h, show l₁.length + 1 = (l₁ ++ [c]).length by simp, List.drop_left]

theorem asString_data (s : String) : s.data.asString = s := rfl

/-- Unescaping the escaped form of a segment half in `parseQueryStep`. -/
theorem parseQueryStep_enc (acc : UrlValues) (err : Bool) (k w : String)
    (hk : ∀ c ∈ k.data, c.toNat < 256) (hw : ∀ c ∈ w.data, c.toNat < 256) :
    parseQueryStep (acc, err) (encSegment k w) = (valuesAdd acc k w, err) := by
  have hkeq : ∀ x ∈ escList k.data, (decide (x ≠ '=')) = true := by
    intro x hx
    simpa using (escList_notSep hk x hx).2.2
  have htake : (encSegment k w).takeWhile (fun c => c ≠ '=') = escList k.data := by
    unfold encSegment
    exact takeWhile_append_stop hkeq (by simp) _
  have hlen : (encSegment k w).length ≠ (escList k.data).length := by
    unfold encSegment
    simp
  have hdrop : (encSegment k w).drop ((escList k.data).length + 1) = escList w.data := by
    unfold encSegment
    exact drop_len_succ _ _ _
  have hnil : encSegment k w ≠ [] := by
    unfold encSegment
    simp
  rw [parseQueryStep, if_neg hnil]
  simp only [htake, if_pos hlen, hlen, if_pos, hdrop]
  rw [unescape_escList_closed k.data hk, unescape_escList_closed w.data hw]
  simp [asString_data]

theorem foldr_append_eq_flatten (f : α → List β) (l : List α) :
    l.foldr (fun e acc => f e ++ acc) [] = (l.map f).flatten := by
  induction l with
  | nil => rfl
  | cons e rest ih => simp [ih]

theorem insertEntryByKey_perm (e : String × List String) (l : UrlValues) :
    List.Perm (insertEntryByKey e l) (e :: l) := by
  induction l with
  | nil => rfl
  | cons f rest ih =>
    rw [insertEntryByKey]
    split
    · rfl
    · exact (ih.cons f).trans (List.Perm.swap e f rest)

theorem sortEntriesByKey_perm (l : UrlValues) : List.Perm (sortEntriesByKey l) l := by
  induction l with
  | nil => rfl
  | cons e rest ih =>
    exact (insertEntryByKey_perm e (sortEntriesByKey rest)).trans (ih.cons e)

theorem keys_valuesAdd (acc : UrlValues) (k v : String) :
    (valuesAdd acc k v).map Prod.fst =
      if k ∈ acc.map Prod.fst then acc.map Prod.fst else acc.map Prod.fst ++ [k] := by
  induction acc with
  | nil => simp [valuesAdd]
  | cons e rest ih =>
    obtain ⟨k', ws⟩ := e
    rw [valuesAdd]
    by_cases hk : k' = k
    · rw [if_pos hk]
      simp [hk]
    · rw [if_neg hk]
      simp only [List.map_cons, ih]
      by_cases hm : k ∈ rest.map Prod.fst
      · rw [if_pos hm, if_pos (by simp [hm])]
      · rw [if_neg hm, if_neg (by simp [hm, Ne.symm hk])]
        simp

theorem nodupKeys_valuesAdd {acc : UrlValues} (h : (acc.map Prod.fst).Nodup)
    (k v : String) : ((valuesAdd acc k v).map Prod.fst).Nodup := by
  rw [keys_valuesAdd]
  split
  · exact h
  · rename_i hm
    simp only [List.nodup_append, List.nodup_cons]
    exact ⟨h, by simp, by simpa using hm⟩

theorem nodupKeys_parseQueryStep {acc : UrlValues × Bool}
    (h : (acc.1.map Prod.fst).Nodup) (seg : List Char) :
    (((parseQueryStep acc seg).1).map Prod.fst).Nodup := by
  rw [parseQueryStep]
  split
  · exact h
  · dsimp only
    split
    · exact h
    · split
      · exact h
      · exact nodupKeys_valuesAdd h _ _

theorem nodupKeys_foldl_steps (segs : List (List Char)) :
    ∀ acc : UrlValues × Bool, (acc.1.map Prod.fst).Nodup →
      (((segs.foldl parseQueryStep acc).1).map Prod.fst).Nodup := by
  induction segs with
  | nil => intro acc h; exact h
  | cons s rest ih =>
    intro acc h
    exact ih (parseQueryStep acc s) (nodupKeys_parseQueryStep h s)

theorem nodupKeys_parseQuery (q : String) : (((parseQuery q).1).map Prod.fst).Nodup := by
  rw [parseQuery]
  exact nodupKeys_foldl_steps _ ([], false) (by simp)

theorem valuesSet_filter {vs : UrlValues} (h : (vs.map Prod.fst).Nodup) (k v : String) :
    (valuesSet vs k v).filter (fun e => e.1 = k) = [(k, [v])] := by
  induction vs with
  | nil => simp [valuesSet]
  | cons e rest ih =>
    obtain ⟨k', ws⟩ := e
    rw [valuesSet]
    by_cases hk : k' = k
    · rw [if_pos hk]
      have hnotin : k ∉ rest.map Prod.fst := by
        rw [List.map_cons, List.nodup_cons] at h
        rw [← hk]
        exact h.1
      have hfil : rest.filter (fun e => decide (e.1 = k)) = [] := by
        rw [List.filter_eq_nil_iff]
        intro x hx
        simp only [decide_eq_true_eq]
        intro hxk
        exact hnotin (hxk ▸ List.mem_map_of_mem Prod.fst hx)
      simp [hk, hfil]
    · rw [if_neg hk]
      have hr : (rest.map Prod.fst).Nodup := by
        rw [List.map_cons, List.nodup_cons] at h
        exact h.2
      simp [hk, ih hr]

theorem keys_valuesSet (vs : UrlValues) (k v : String) :
    (valuesSet vs k v).map Prod.fst =
      if k ∈ vs.map Prod.fst then vs.map Prod.fst else vs.map Prod.fst ++ [k] := by
  induction vs with
  | nil => simp [valuesSet]
  | cons e rest ih =>
    obtain ⟨k', ws⟩ := e
    rw [valuesSet]
    by_cases hk : k' = k
    · rw [if_pos hk]
      simp [hk]
    · rw [if_neg hk]
      simp only [List.map_cons, ih]
      by_cases hm : k ∈ rest.map Prod.fst
      · rw [if_pos hm, if_pos (by simp [hm])]
      · rw [if_neg hm, if_neg (by simp [hm, Ne.symm hk])]
        simp

theorem nodupKeys_valuesSet {vs : UrlValues} (h : (vs.map Prod.fst).Nodup)
    (k v : String) : ((valuesSet vs k v).map Prod.fst).Nodup := by
  rw [keys_valuesSet]
  split
  · exact h
  · rename_i hm
    simp only [List.nodup_append, List.nodup_cons]
    exact ⟨h, by simp, by simpa using hm⟩

theorem valuesGet_eq_entryListOf (vs : UrlValues) (k : String) :
    valuesGet vs k = ((entryListOf vs k).getD []).headD "" := by
  induction vs with
  | nil => rfl
  | cons e rest ih =>
    obtain ⟨k', ws⟩ := e
    rw [valuesGet, entryListOf]
    by_cases hk : k' = k
    · simp [hk]
    · simp [hk, ih]

theorem entryListOf_valuesAdd_same (acc : UrlValues) (k v : String) :
    entryListOf (valuesAdd acc k v) k = some ((entryListOf acc k).getD [] ++ [v]) := by
  induction acc with
  | nil => simp [valuesAdd, entryListOf]
  | cons e rest ih =>
    obtain ⟨k', ws⟩ := e
    rw [valuesAdd]
    by_cases hk : k' = k
    · rw [if_pos hk]
      rw [entryListOf, if_pos hk, entryListOf, if_pos hk]
      simp
    · rw [if_neg hk]
      rw [entryListOf, if_neg hk, entryListOf, if_neg hk]
      exact ih

theorem entryListOf_valuesAdd_other (acc : UrlValues) {k' : String} {k : String} (v : String)
    (h : k' ≠ k) : entryListOf (valuesAdd acc k' v) k = entryListOf acc k := by
  induction acc with
  | nil => simp [valuesAdd, entryListOf, h]
  | cons e rest ih =>
    obtain ⟨ke, ws⟩ := e
    rw [valuesAdd]
    by_cases hk : ke = k'
    · rw [if_pos hk]
      rw [entryListOf, entryListOf]
      have hne : ¬ ke = k := by rw [hk]; exact h
      rw [if_neg hne, if_neg hne]
    · rw [if_neg hk]
      rw [entryListOf, entryListOf]
      by_cases hek : ke = k
      · rw [if_pos hek, if_pos hek]
      · rw [if_neg hek, if_neg hek]
        exact ih

theorem entryListOf_foldAdd (pairs : List (String × String)) (k : String) :
    ∀ acc : UrlValues,
      ((entryListOf (pairs.foldl (fun a p => valuesAdd a p.1 p.2) acc) k).getD [])
        = (entryListOf acc k).getD [] ++ (pairs.filter (fun p => p.1 = k)).map Prod.snd := by
  induction pairs with
  | nil => intro acc; simp
  | cons p rest ih =>
    intro acc
    rw [List.foldl_cons, ih (valuesAdd acc p.1 p.2)]
    by_cases hk : p.1 = k
    · rw [hk, entryListOf_valuesAdd_same]
      have hfc : List.filter (fun q => decide (q.1 = k)) (p :: rest)
          = p :: List.filter (fun q => decide (q.1 = k)) rest := by
        simp [List.filter_cons, hk]
      rw [hfc]
      simp
    · rw [entryListOf_valuesAdd_other acc p.2 hk]
      have hfc : List.filter (fun q => decide (q.1 = k)) (p :: rest)
          = List.filter (fun q => decide (q.1 = k)) rest := by
        simp [List.filter_cons, hk]
      rw [hfc]

theorem pairsOf_filter (l : UrlValues) (k : String) :
    ((pairsOf l).filter (fun p => p.1 = k)).map Prod.snd
      = ((l.filter (fun e => e.1 = k)).map (fun e => e.2)).flatten := by
  induction l with
  | nil => simp [pairsOf]
  | cons e rest ih =>
    have hcons : pairsOf (e :: rest) = e.2.map (fun w => (e.1, w)) ++ pairsOf rest := by
      simp [pairsOf]
    rw [hcons, List.filter_append, List.map_append, ih]
    by_cases hk : e.1 = k
    · have hhead : (e.2.map (fun w => (e.1, w))).filter (fun p => decide (p.1 = k))
          = e.2.map (fun w => (e.1, w)) := by
        rw [List.filter_eq_self]
        intro x hx
        rw [List.mem_map] at hx
        obtain ⟨w, _, rfl⟩ := hx
        simpa using hk
      rw [hhead]
      have : List.filter (fun e => decide (e.1 = k)) (e :: rest)
          = e :: List.filter (fun e => decide (e.1 = k)) rest := by
        simp [List.filter_cons, hk]
      rw [this]
      simp [List.map_map, Function.comp]
    · have hhead : (e.2.map (fun w => (e.1, w))).filter (fun p => decide (p.1 = k)) = [] := by
        rw [List.filter_eq_nil_iff]
        intro x hx
        rw [List.mem_map] at hx
        obtain ⟨w, _, rfl⟩ := hx
        simpa using hk
      rw [hhead]
      have : List.filter (fun e => decide (e.1 = k)) (e :: rest)
          = List.filter (fun e => decide (e.1 = k)) rest := by
        simp [List.filter_cons, hk]
      rw [this]
      simp

theorem unhexChar_lt16 (c : Char) : unhexChar c < 16 := by
  unfold unhexChar
  split_ifs <;> simp_all <;> omega

/-- Unescaping preserves the single-byte character regime. -/
theorem unescape_latin1 :
    ∀ (n : Nat) (cs : List Char), cs.length ≤ n → (∀ c ∈ cs, c.toNat < 256) →
      ∀ r, queryUnescapeList cs = some r → ∀ c ∈ r, c.toNat < 256 := by
  intro n
  induction n with
  | zero =>
    intro cs hlen _ r hr
    have : cs = [] := List.eq_nil_of_length_eq_zero (by omega)
    subst this
    simp only [queryUnescapeList] at hr
    cases hr
    simp
  | succ n ih =>
    intro cs hlen hcs r hr
    cases cs with
    | nil =>
      simp only [queryUnescapeList] at hr
      cases hr
      simp
    | cons c t =>
      by_cases hpct : c = '%'
      · subst hpct
        cases t with
        | nil => simp [queryUnescapeList] at hr
        | cons h1 t1 =>
          cases t1 with
          | nil => simp [queryUnescapeList] at hr
          | cons h2 t2 =>
            rw [queryUnescape_cons_pct] at hr
            split_ifs at hr
            rw [Option.map_eq_some'] at hr
            obtain ⟨r', hr', rfl⟩ := hr
            intro x hx
            rcases List.mem_cons.mp hx with rfl | hx'
            · have hv : 16 * unhexChar h1 + unhexChar h2 < 256 := by
                have := unhexChar_lt16 h1
                have := unhexChar_lt16 h2
                omega
              rw [charToNat_ofNat_lt hv]
              exact hv
            · refine ih t2 (by simp at hlen; omega)
                (fun x hx => hcs x (by simp [hx])) r' hr' x hx'
      · by_cases hplus : c = '+'
        · subst hplus
          rw [queryUnescape_cons_plus] at hr
          rw [Option.map_eq_some'] at hr
          obtain ⟨r', hr', rfl⟩ := hr
          intro x hx
          rcases List.mem_cons.mp hx with rfl | hx'
          · decide
          · exact ih t (by simp at hlen; omega)
              (fun x hx => hcs x (by simp [hx])) r' hr' x hx'
        · rw [queryUnescape_cons_plain hpct hplus] at hr
          rw [Option.map_eq_some'] at hr
          obtain ⟨r', hr', rfl⟩ := hr
          intro x hx
          rcases List.mem_cons.mp hx with rfl | hx'
          · exact hcs x (by simp)
          · exact ih t (by simp at hlen; omega)
              (fun x hx => hcs x (by simp [hx])) r' hr' x hx'

/-- Every string stored in a values map consists of single-byte
characters. -/
def valuesLatin1 (vs : UrlValues) : Prop :=
  ∀ e ∈ vs, (∀ c ∈ e.1.data, c.toNat < 256) ∧ ∀ w ∈ e.2, ∀ c ∈ w.data, c.toNat < 256

theorem valuesLatin1_nil : valuesLatin1 [] := by
  intro e he
  simp at he

theorem valuesLatin1_valuesAdd {acc : UrlValues} (h : valuesLatin1 acc) {k v : String}
    (hk : ∀ c ∈ k.data, c.toNat < 256) (hv : ∀ c ∈ v.data, c.toNat < 256) :
    valuesLatin1 (valuesAdd acc k v) := by
  induction acc with
  | nil =>
    intro e he
    simp only [valuesAdd] at he
    rw [List.mem_singleton] at he
    subst he
    exact ⟨hk, by intro w hw; rw [List.mem_singleton] at hw; subst hw; exact hv⟩
  | cons f rest ih =>
    obtain ⟨kf, wsf⟩ := f
    have hf := h (kf, wsf) (List.mem_cons_self _ _)
    have hrest : valuesLatin1 rest := fun e he => h e (List.mem_cons_of_mem _ he)
    rw [valuesAdd]
    by_cases hkk : kf = k
    · rw [if_pos hkk]
      intro e he
      rcases List.mem_cons.mp he with rfl | he'
      · refine ⟨hf.1, ?_⟩
        intro w hw
        rcases List.mem_append.mp hw with hw' | hw'
        · exact hf.2 w hw'
        · rw [List.mem_singleton] at hw'
          subst hw'
          exact hv
      · exact hrest e he'
    · rw [if_neg hkk]
      intro e he
      rcases List.mem_cons.mp he with rfl | he'
      · exact hf
      · exact ih hrest e he'

theorem valuesLatin1_valuesSet {vs : UrlValues} (h : valuesLatin1 vs) {k v : String}
    (hk : ∀ c ∈ k.data, c.toNat < 256) (hv : ∀ c ∈ v.data, c.toNat < 256) :
    valuesLatin1 (valuesSet vs k v) := by
  induction vs with
  | nil =>
    intro e he
    simp only [valuesSet] at he
    rw [List.mem_singleton] at he
    subst he
    exact ⟨hk, by intro w hw; rw [List.mem_singleton] at hw; subst hw; exact hv⟩
  | cons f rest ih =>
    obtain ⟨kf, wsf⟩ := f
    have hf := h (kf, wsf) (List.mem_cons_self _ _)
    have hrest : valuesLatin1 rest := fun e he => h e (List.mem_cons_of_mem _ he)
    rw [valuesSet]
    by_cases hkk : kf = k
    · rw [if_pos hkk]
      intro e he
      rcases List.mem_cons.mp he with rfl | he'
      · refine ⟨hkk ▸ hf.1, ?_⟩
        intro w hw
        rw [List.mem_singleton] at hw
        subst hw
        exact hv
      · exact hrest e he'
    · rw [if_neg hkk]
      intro e he
      rcases List.mem_cons.mp he with rfl | he'
      · exact hf
      · exact ih hrest e he'

theorem querySegmentsAux_chars (l : List Char) :
    ∀ acc s, s ∈ querySegmentsAux l acc → ∀ c ∈ s, c ∈ l ∨ c ∈ acc := by
  induction l with
  | nil =>
    intro acc s hs c hc
    simp only [querySegmentsAux] at hs
    rw [List.mem_singleton] at hs
    subst hs
    right
    exact List.mem_reverse.mp hc
  | cons b t ih =>
    intro acc s hs c hc
    rw [querySegmentsAux] at hs
    split_ifs at hs
    · rcases List.mem_cons.mp hs with rfl | hs'
      · right
        exact List.mem_reverse.mp hc
      · rcases ih [] s hs' c hc with h | h
        · left; exact List.mem_cons_of_mem b h
        · simp at h
    · rcases ih (b :: acc) s hs c hc with h | h
      · left; exact List.mem_cons_of_mem b h
      · rcases List.mem_cons.mp h with rfl | h'
        · left; exact List.mem_cons_self _ _
        · right; exact h'

theorem querySegments_chars {l : List Char} {s : List Char}
    (hs : s ∈ querySegments l) : ∀ c ∈ s, c ∈ l := by
  intro c hc
  rw [querySegments] at hs
  split_ifs at hs with hl
  · simp at hs
  · rcases querySegmentsAux_chars l [] s hs c hc with h | h
    · exact h
    · simp at h

theorem valuesLatin1_parseQueryStep {acc : UrlValues × Bool} (h : valuesLatin1 acc.1)
    {seg : List Char} (hseg : ∀ c ∈ seg, c.toNat < 256) :
    valuesLatin1 (parseQueryStep acc seg).1 := by
  rw [parseQueryStep]
  split
  · exact h
  · dsimp only
    cases hk : queryUnescapeList (seg.takeWhile (fun c => c ≠ '=')) with
    | none => exact h
    | some k =>
      cases hv : queryUnescapeList
          (if seg.length ≠ (seg.takeWhile (fun c => c ≠ '=')).length then
            seg.drop ((seg.takeWhile (fun c => c ≠ '=')).length + 1) else []) with
      | none => exact h
      | some v =>
        have hkchars : ∀ c ∈ seg.takeWhile (fun c => c ≠ '='), c.toNat < 256 := by
          intro c hc
          exact hseg c ((List.takeWhile_sublist _).subset hc)
        have hvchars :
            ∀ c ∈ (if seg.length ≠ (seg.takeWhile (fun c => c ≠ '=')).length then
              seg.drop ((seg.takeWhile (fun c => c ≠ '=')).length + 1) else []),
              c.toNat < 256 := by
          intro c hc
          split at hc
          · exact hseg c ((List.drop_sublist _ _).subset hc)
          · simp at hc
        exact valuesLatin1_valuesAdd h
          (unescape_latin1 _ _ le_rfl hkchars _ hk)
          (unescape_latin1 _ _ le_rfl hvchars _ hv)

theorem valuesLatin1_foldl (segs : List (List Char)) :
    ∀ acc : UrlValues × Bool, valuesLatin1 acc.1 →
      (∀ s ∈ segs, ∀ c ∈ s, c.toNat < 256) →
      valuesLatin1 ((segs.foldl parseQueryStep acc).1) := by
  induction segs with
  | nil => intro acc h _; exact h
  | cons s rest ih =>
    intro acc h hsegs
    exact ih (parseQueryStep acc s)
      (valuesLatin1_parseQueryStep h (hsegs s (List.mem_cons_self _ _)))
      (fun t ht => hsegs t (List.mem_cons_of_mem _ ht))

theorem valuesLatin1_parseQuery {q : String} (hq : ∀ c ∈ q.data, c.toNat < 256) :
    valuesLatin1 (parseQuery q).1 := by
  rw [parseQuery]
  exact valuesLatin1_foldl _ ([], false) valuesLatin1_nil
    (fun s hs c hc => hq c (querySegments_chars hs c hc))

theorem decDigitChar_toNat {d : Nat} (h : d < 10) : (decDigitChar d).toNat = 48 + d :=
  charToNat_ofNat_lt (by omega)

theorem isDigit_decDigitChar {d : Nat} (h : d < 10) : isDigitChar (decDigitChar d) = true := by
  unfold isDigitChar
  rw [decDigitChar_toNat h]
  simp
  omega

theorem digitsToNat_append (l : List Char) (c : Char) :
    digitRunToNat ((l ++ [c]).map Char.toNat) = 10 * digitRunToNat (l.map Char.toNat) + (c.toNat - 48) := by
  simp [digitRunToNat, List.foldl_append]

theorem digitsToNatChar_append (l : List Char) (c : Char) :
    digitsToNat (l ++ [c]) = 10 * digitsToNat l + (c.toNat - 48) := by
  simp [digitsToNat, List.foldl_append]

theorem natToDigitsRev_spec (n : Nat) :
    digitsToNat (natToDigitsRev n).reverse = n ∧ natToDigitsRev n ≠ [] ∧
      ∀ c ∈ natToDigitsRev n, isDigitChar c = true := by
  induction n using Nat.strong_induction_on with
  | _ n ih =>
    rw [natToDigitsRev]
    split_ifs with h
    · refine ⟨?_, by simp, ?_⟩
      · simp [digitsToNat, decDigitChar_toNat h]
      · intro c hc
        rw [List.mem_singleton] at hc
        subst hc
        exact isDigit_decDigitChar h
    · have hq := ih (n / 10) (Nat.div_lt_self (by omega) (by omega))
      refine ⟨?_, by simp, ?_⟩
      · rw [List.reverse_cons, digitsToNatChar_append, hq.1,
          decDigitChar_toNat (Nat.mod_lt n (by omega))]
        omega
      · intro c hc
        rcases List.mem_cons.mp hc with rfl | hc'
        · exact isDigit_decDigitChar (Nat.mod_lt n (by omega))
        · exact hq.2.2 c hc'

theorem digitListToNat_natToDigits (n : Nat) :
    digitListToNat (natToDigitsRev n).reverse = some n := by
  have hs := natToDigitsRev_spec n
  rw [digitListToNat, if_pos]
  · rw [hs.1]
  · rw [Bool.and_eq_true]
    constructor
    · simp [hs.2.1]
    · rw [List.all_eq_true]
      intro c hc
      exact hs.2.2 c (List.mem_reverse.mp hc)

theorem digitChar_props {c : Char} (h : isDigitChar c = true) :
    c ≠ '+' ∧ c ≠ '-' ∧ c.toNat < 256 := by
  unfold isDigitChar at h
  simp at h
  refine ⟨?_, ?_, by omega⟩ <;> (intro he; subst he; simp_all)

theorem data_asString (l : List Char) : l.asString.data = l := rfl

theorem atoiInt_of_digit_data (s : String) (hne : s.data ≠ [])
    (hdig : ∀ c ∈ s.data, isDigitChar c = true) :
    atoiInt s = (digitListToNat s.data).map Int.ofNat := by
  obtain ⟨d, rest, hdata⟩ := List.exists_cons_of_ne_nil hne
  have hd := digitChar_props (hdig d (by rw [hdata]; exact List.mem_cons_self _ _))
  unfold atoiInt
  rw [hdata]
  simp [hd.1, hd.2.1]

theorem atoiInt_intToString (n : Int) : atoiInt (intToString n) = some n := by
  rw [intToString]
  split_ifs with hneg
  · have hdata : ("-" ++ natToString n.natAbs).data
        = '-' :: (natToDigitsRev n.natAbs).reverse := by
      rw [natToString, String.data_append, data_asString]
      rfl
    unfold atoiInt
    rw [hdata]
    simp only [digitListToNat_natToDigits]
    exact congrArg some (show -((n.natAbs : Int)) = n by omega)
  · have hdata : (natToString n.toNat).data = (natToDigitsRev n.toNat).reverse := by
      rw [natToString, data_asString]
    have hne : (natToString n.toNat).data ≠ [] := by
      rw [hdata]
      simp [(natToDigitsRev_spec n.toNat).2.1]
    have hdig : ∀ c ∈ (natToString n.toNat).data, isDigitChar c = true := by
      rw [hdata]
      intro c hc
      exact (natToDigitsRev_spec n.toNat).2.2 c (List.mem_reverse.mp hc)
    rw [atoiInt_of_digit_data _ hne hdig, hdata, digitListToNat_natToDigits]
    simp
    omega

theorem intToString_props (n : Int) :
    intToString n ≠ "" ∧ ∀ c ∈ (intToString n).data, c.toNat < 256 := by
  have hdigits : ∀ m : Nat, ∀ c ∈ (natToDigitsRev m).reverse, c.toNat < 256 := by
    intro m c hc
    exact (digitChar_props ((natToDigitsRev_spec m).2.2 c (List.mem_reverse.mp hc))).2.2
  rw [intToString]
  split_ifs with hneg
  · have hdata : ("-" ++ natToString n.natAbs).data
        = '-' :: (natToDigitsRev n.natAbs).reverse := by
      rw [natToString, String.data_append, data_asString]
      rfl
    constructor
    · intro he
      have : ("-" ++ natToString n.natAbs).data = [] := by rw [he]
      rw [hdata] at this
      exact List.cons_ne_nil _ _ this
    · intro c hc
      rw [hdata] at hc
      rcases List.mem_cons.mp hc with rfl | hc'
      · decide
      · exact hdigits n.natAbs c hc'
  · have hdata : (natToString n.toNat).data = (natToDigitsRev n.toNat).reverse := by
      rw [natToString, data_asString]
    constructor
    · intro he
      have : (natToString n.toNat).data = [] := by rw [he]
      rw [hdata] at this
      exact (natToDigitsRev_spec n.toNat).2.1 (by simpa using this)
    · intro c hc
      rw [hdata] at hc
      exact hdigits n.toNat c hc

theorem foldl_steps_enc (pairs : List (String × String)) :
    ∀ acc : UrlValues,
      (∀ p ∈ pairs, (∀ c ∈ p.1.data, c.toNat < 256) ∧ (∀ c ∈ p.2.data, c.toNat < 256)) →
      (pairs.map (fun p => encSegment p.1 p.2)).foldl parseQueryStep (acc, false)
        = (pairs.foldl (fun a p => valuesAdd a p.1 p.2) acc, false) := by
  induction pairs with
  | nil => intro acc _; rfl
  | cons p rest ih =>
    intro acc hp
    rw [List.map_cons, List.foldl_cons, List.foldl_cons,
      parseQueryStep_enc acc false p.1 p.2 (hp p (List.mem_cons_self _ _)).1
        (hp p (List.mem_cons_self _ _)).2]
    exact ih (valuesAdd acc p.1 p.2) (fun q hq => hp q (List.mem_cons_of_mem _ hq))

theorem pairsOf_map_enc (l : UrlValues) :
    (pairsOf l).map (fun p => encSegment p.1 p.2)
      = (l.map (fun e => e.2.map (fun w => encSegment e.1 w))).flatten := by
  induction l with
  | nil => rfl
  | cons e rest ih =>
    have hcons : pairsOf (e :: rest) = e.2.map (fun w => (e.1, w)) ++ pairsOf rest := by
      simp [pairsOf]
    rw [hcons, List.map_append, ih]
    simp [List.map_map, Function.comp]

theorem mem_pairsOf {l : UrlValues} {p : String × String} (hp : p ∈ pairsOf l) :
    ∃ e ∈ l, p.1 = e.1 ∧ p.2 ∈ e.2 := by
  rw [pairsOf, List.mem_flatten] at hp
  obtain ⟨ws, hws, hpw⟩ := hp
  rw [List.mem_map] at hws
  obtain ⟨e, he, rfl⟩ := hws
  rw [List.mem_map] at hpw
  obtain ⟨w, hw, rfl⟩ := hpw
  exact ⟨e, he, rfl, hw⟩

theorem parse_valuesEncode (vs : UrlValues) (hv : valuesLatin1 vs) :
    parseQuery (valuesEncode vs)
      = ((pairsOf (sortEntriesByKey vs)).foldl (fun a p => valuesAdd a p.1 p.2) [], false) := by
  have hsortedL : valuesLatin1 (sortEntriesByKey vs) := by
    intro e he
    exact hv e ((sortEntriesByKey_perm vs).mem_iff.mp he)
  have hpairsChars : ∀ p ∈ pairsOf (sortEntriesByKey vs),
      (∀ c ∈ p.1.data, c.toNat < 256) ∧ (∀ c ∈ p.2.data, c.toNat < 256) := by
    intro p hp
    obtain ⟨e, he, h1, h2⟩ := mem_pairsOf hp
    have := hsortedL e he
    exact ⟨h1 ▸ this.1, this.2 p.2 h2⟩
  have hparts : valuesEncode vs =
      (joinSepChar '&' ((pairsOf (sortEntriesByKey vs)).map
        (fun p => encSegment p.1 p.2))).asString := by
    rw [valuesEncode, foldr_append_eq_flatten, pairsOf_map_enc]
  rw [hparts, parseQuery, data_asString]
  cases hpp : pairsOf (sortEntriesByKey vs) with
  | nil =>
    simp [joinSepChar, querySegments]
  | cons p0 prest =>
    have hsegs : querySegments (joinSepChar '&'
        ((p0 :: prest).map (fun p => encSegment p.1 p.2)))
        = (p0 :: prest).map (fun p => encSegment p.1 p.2) := by
      refine querySegments_join _ ?_ ?_ (by simp)
      · intro q hq
        rw [List.mem_map] at hq
        obtain ⟨p, _, rfl⟩ := hq
        rw [encSegment]
        simp
      · intro q hq c hc
        rw [List.mem_map] at hq
        obtain ⟨p, hp, rfl⟩ := hq
        have hchars := hpairsChars p (hpp ▸ hp)
        rw [encSegment] at hc
        rcases List.mem_append.mp hc with hc' | hc'
        · have := escList_notSep hchars.1 c hc'
          exact ⟨this.1, this.2.1⟩
        · rcases List.mem_cons.mp hc' with rfl | hc''
          · exact ⟨by decide, by decide⟩
          · have := escList_notSep hchars.2 c hc''
            exact ⟨this.1, this.2.1⟩
    rw [hsegs]
    rw [foldl_steps_enc (p0 :: prest) [] (fun p hp => hpairsChars p (hpp ▸ hp))]

theorem valuesGet_parse_encode_seq (vs : UrlValues) (hnodup : (vs.map Prod.fst).Nodup)
    (hv : valuesLatin1 vs) (val : String) (hvalchars : ∀ c ∈ val.data, c.toNat < 256) :
    (parseQuery (valuesEncode (valuesSet vs "seq" val))).2 = false ∧
    valuesGet (parseQuery (valuesEncode (valuesSet vs "seq" val))).1 "seq" = val := by
  have hv' : valuesLatin1 (valuesSet vs "seq" val) :=
    valuesLatin1_valuesSet hv (by decide) hvalchars
  have h1 := parse_valuesEncode (valuesSet vs "seq" val) hv'
  rw [h1]
  refine ⟨rfl, ?_⟩
  rw [valuesGet_eq_entryListOf]
  have h2 := entryListOf_foldAdd (pairsOf (sortEntriesByKey (valuesSet vs "seq" val))) "seq" []
  simp only [entryListOf, Option.getD_none, List.nil_append] at h2
  rw [h2]
  rw [pairsOf_filter]
  have h3 : (sortEntriesByKey (valuesSet vs "seq" val)).filter (fun e => e.1 = "seq")
      = [("seq", [val])] := by
    have hperm := ((sortEntriesByKey_perm (valuesSet vs "seq" val)).filter
      (fun e => decide (e.1 = "seq")))
    rw [valuesSet_filter hnodup "seq" val] at hperm
    exact List.perm_singleton.mp hperm
  rw [h3]
  rfl

theorem seqMangle_free {m : SeqMessage} (hm : seqFreeB m = true) (L : Int) :
    seqManglerMangle L m = (L, ManglerNoop, m) ∧ southboundSeqVal m = none := by
  rw [seqFreeB] at hm
  cases hnb : m.northbound with
  | true =>
    constructor
    · simp [seqManglerMangle, hnb]
    · simp [southboundSeqVal, hnb]
  | false =>
    rw [hnb] at hm
    simp only [Bool.false_or] at hm
    cases hreq : m.request with
    | none => simp [seqManglerMangle, southboundSeqVal, hnb, hreq]
    | some req =>
      rw [hreq] at hm
      simp only [Bool.and_eq_true, Bool.not_eq_true', decide_eq_true_eq] at hm
      obtain ⟨h2, h3⟩ := hm
      constructor
      · simp [seqManglerMangle, hnb, hreq, h2, h3]
      · simp [southboundSeqVal, hnb, hreq, h2, h3]

theorem seqMangle_err {m : SeqMessage} (hm : seqErrB m = true) (L : Int) :
    seqManglerMangle L m = (L, ManglerErr, m) ∧ southboundSeqVal m = none := by
  rw [seqErrB] at hm
  simp only [Bool.and_eq_true, Bool.not_eq_true'] at hm
  obtain ⟨hnb, hm2⟩ := hm
  cases hreq : m.request with
  | none => rw [hreq] at hm2; simp at hm2
  | some req =>
    rw [hreq] at hm2
    have hm3 : ((parseQuery req.urlRawQuery).2 ||
        (decide (valuesGet (parseQuery req.urlRawQuery).1 "seq" ≠ "") &&
          (atoiInt (valuesGet (parseQuery req.urlRawQuery).1 "seq")).isNone)) = true := hm2
    by_cases hp : (parseQuery req.urlRawQuery).2 = true
    · exact ⟨by simp [seqManglerMangle, hnb, hreq, hp],
        by simp [southboundSeqVal, hnb, hreq, hp]⟩
    · have hp' : (parseQuery req.urlRawQuery).2 = false := by
        revert hp
        cases (parseQuery req.urlRawQuery).2 <;> simp
      rw [hp'] at hm3
      simp only [Bool.false_or, Bool.and_eq_true, decide_eq_true_eq,
        Option.isNone_iff_eq_none] at hm3
      obtain ⟨hne, hnone⟩ := hm3
      exact ⟨by simp [seqManglerMangle, hnb, hreq, hp', hne, hnone],
        by simp [southboundSeqVal, hnb, hreq, hp', hne, hnone]⟩

theorem seqMangle_unchanged {m : SeqMessage} (hm : seqNumericB m = false) (L : Int) :
    (∃ flag, seqManglerMangle L m = (L, flag, m)) ∧ southboundSeqVal m = none := by
  rw [seqNumericB] at hm
  cases hnb : m.northbound with
  | true =>
    exact ⟨⟨ManglerNoop, by simp [seqManglerMangle, hnb]⟩,
      by simp [southboundSeqVal, hnb]⟩
  | false =>
    rw [hnb] at hm
    simp only [Bool.not_false, Bool.true_and] at hm
    cases hreq : m.request with
    | none =>
      exact ⟨⟨ManglerNoop, by simp [seqManglerMangle, hnb, hreq]⟩,
        by simp [southboundSeqVal, hnb, hreq]⟩
    | some req =>
      rw [hreq] at hm
      by_cases hp : (parseQuery req.urlRawQuery).2 = true
      · exact ⟨⟨ManglerErr, by simp [seqManglerMangle, hnb, hreq, hp]⟩,
          by simp [southboundSeqVal, hnb, hreq, hp]⟩
      · have hp' : (parseQuery req.urlRawQuery).2 = false := by
          revert hp
          cases (parseQuery req.urlRawQuery).2 <;> simp
        by_cases hs : valuesGet (parseQuery req.urlRawQuery).1 "seq" = ""
        · exact ⟨⟨ManglerNoop, by simp [seqManglerMangle, hnb, hreq, hp', hs]⟩,
            by simp [southboundSeqVal, hnb, hreq, hp', hs]⟩
        · have hnone : atoiInt (valuesGet (parseQuery req.urlRawQuery).1 "seq") = none := by
            have hm3 : (!(parseQuery req.urlRawQuery).2 &&
                (decide (valuesGet (parseQuery req.urlRawQuery).1 "seq" ≠ "") &&
                  (atoiInt (valuesGet (parseQuery req.urlRawQuery).1 "seq")).isSome))
                = false := hm
            rw [hp'] at hm3
            simp only [Bool.not_false, Bool.true_and] at hm3
            rcases Bool.and_eq_false_iff.mp hm3 with h1 | h1
            · simp only [decide_eq_false_iff_not, not_not] at h1
              exact absurd h1 hs
            · exact Option.not_isSome_iff_eq_none.mp (by rw [h1]; simp)
          exact ⟨⟨ManglerErr, by simp [seqManglerMangle, hnb, hreq, hp', hs, hnone]⟩,
            by simp [southboundSeqVal, hnb, hreq, hp', hs, hnone]⟩

theorem seqNumeric_not_free {m : SeqMessage} (hm : seqNumericB m = true) :
    seqFreeB m = false := by
  rw [seqNumericB] at hm
  simp only [Bool.and_eq_true, Bool.not_eq_true'] at hm
  obtain ⟨hnb, hm2⟩ := hm
  rw [seqFreeB, hnb]
  simp only [Bool.false_or]
  cases hreq : m.request with
  | none => rw [hreq] at hm2; simp at hm2
  | some req =>
    rw [hreq] at hm2
    simp only [Bool.and_eq_true, Bool.not_eq_true', decide_eq_true_eq] at hm2
    simp [hm2.1, hm2.2.1]

theorem seqMangle_numeric {m : SeqMessage} (hm : seqNumericB m = true)
    (hlat : latin1B m = true) (L : Int) :
    (seqManglerMangle L m).1 = L + 1 ∧
    southboundSeqVal (seqManglerMangle L m).2.2 = some (L + 1) := by
  rw [seqNumericB] at hm
  simp only [Bool.and_eq_true, Bool.not_eq_true'] at hm
  obtain ⟨hnb, hm2⟩ := hm
  cases hreq : m.request with
  | none => rw [hreq] at hm2; simp at hm2
  | some req =>
    rw [hreq] at hm2
    simp only [Bool.and_eq_true, Bool.not_eq_true', decide_eq_true_eq] at hm2
    obtain ⟨herr, hget, hsome⟩ := hm2
    obtain ⟨seqIn, hatoi⟩ := Option.isSome_iff_exists.mp hsome
    by_cases heq : L + 1 = seqIn
    · have hmangle : seqManglerMangle L m = (L + 1, ManglerNoop, m) := by
        simp [seqManglerMangle, hnb, hreq, herr, hget, hatoi, heq]
      rw [hmangle]
      refine ⟨rfl, ?_⟩
      simp only [southboundSeqVal, hnb, hreq]
      simp [herr, hget, hatoi, heq]
    · have hmangle : seqManglerMangle L m = (L + 1, ManglerSuccess,
          { m with request := some { req with
              urlRawQuery := valuesEncode (valuesSet (parseQuery req.urlRawQuery).1
                "seq" (intToString (L + 1))) } }) := by
        simp [seqManglerMangle, hnb, hreq, herr, hget, hatoi, heq]
      rw [hmangle]
      refine ⟨rfl, ?_⟩
      have hlatq : ∀ c ∈ req.urlRawQuery.data, c.toNat < 256 := by
        rw [latin1B, hreq] at hlat
        intro c hc
        have := List.all_eq_true.mp hlat c hc
        simpa using this
      have hrt := valuesGet_parse_encode_seq (parseQuery req.urlRawQuery).1
        (nodupKeys_parseQuery req.urlRawQuery) (valuesLatin1_parseQuery hlatq)
        (intToString (L + 1)) (intToString_props (L + 1)).2
      simp only [southboundSeqVal, hnb]
      simp [hrt.1, hrt.2, (intToString_props (L + 1)).1, atoiInt_intToString]

theorem runSeq_spec (msgs : List SeqMessage) :
    ∀ L : Int,
      (∀ m ∈ msgs, seqNumericB m = true → latin1B m = true) →
      (runSeqMangler L msgs).1 = L + countSequenced msgs
      ∧ (runSeqMangler L msgs).2.filterMap southboundSeqVal
          = (List.range (countSequenced msgs)).map (fun i : Nat => L + 1 + (i : Int))
      ∧ (runSeqMangler L msgs).2.length = msgs.length
      ∧ ∀ p ∈ msgs.zip (runSeqMangler L msgs).2, seqNumericB p.1 = false → p.2 = p.1 := by
  induction msgs with
  | nil =>
    intro L _
    simp [runSeqMangler, countSequenced]
  | cons m ms ih =>
    intro L h
    cases hnum : seqNumericB m with
    | true =>
      have hlat := h m (List.mem_cons_self _ _) hnum
      have hstep := seqMangle_numeric hnum hlat L
      have hcount : countSequenced (m :: ms) = countSequenced ms + 1 := by
        simp [countSequenced, List.countP_cons, hnum]
      have ihh := ih ((seqManglerMangle L m).1) (fun x hx => h x (List.mem_cons_of_mem _ hx))
      rw [hstep.1] at ihh
      rw [runSeqMangler]
      refine ⟨?_, ?_, ?_, ?_⟩
      · show (runSeqMangler (seqManglerMangle L m).1 ms).1 = _
        rw [hstep.1, ihh.1, hcount]
        push_cast
        ring
      · show List.filterMap southboundSeqVal
          ((seqManglerMangle L m).2.2 :: (runSeqMangler (seqManglerMangle L m).1 ms).2) = _
        have hl : List.filterMap southboundSeqVal
            ((seqManglerMangle L m).2.2 :: (runSeqMangler (seqManglerMangle L m).1 ms).2)
            = (L + 1) :: List.filterMap southboundSeqVal
                (runSeqMangler (seqManglerMangle L m).1 ms).2 := by
          simp only [List.filterMap_cons, hstep.2]
        rw [hl, hstep.1, ihh.2.1, hcount, List.range_succ_eq_map, List.map_cons,
          List.map_map]
        congr 1
        · simp
        · refine List.map_congr_left ?_
          intro i _
          show L + 1 + 1 + (i : Int) = L + 1 + ((Nat.succ i : Nat) : Int)
          push_cast
          ring
      · show ((seqManglerMangle L m).2.2 :: (runSeqMangler (seqManglerMangle L m).1 ms).2).length = _
        rw [List.length_cons, hstep.1, ihh.2.2.1, List.length_cons]
      · intro p hp hpfree
        rw [show ((m :: ms).zip ((seqManglerMangle L m).2.2 ::
            (runSeqMangler (seqManglerMangle L m).1 ms).2))
          = (m, (seqManglerMangle L m).2.2) ::
            (ms.zip (runSeqMangler (seqManglerMangle L m).1 ms).2) from rfl] at hp
        rcases List.mem_cons.mp hp with rfl | hp'
        · rw [hnum] at hpfree
          cases hpfree
        · rw [hstep.1] at hp'
          exact ihh.2.2.2 p hp' hpfree
    | false =>
      obtain ⟨⟨flag, hflag⟩, hval⟩ := seqMangle_unchanged hnum L
      have hcount : countSequenced (m :: ms) = countSequenced ms := by
        simp [countSequenced, List.countP_cons, hnum]
      have ihh := ih L (fun x hx => h x (List.mem_cons_of_mem _ hx))
      rw [runSeqMangler, hflag]
      refine ⟨?_, ?_, ?_, ?_⟩
      · show (runSeqMangler L ms).1 = _
        rw [ihh.1, hcount]
      · show List.filterMap southboundSeqVal (m :: (runSeqMangler L ms).2) = _
        rw [List.filterMap_cons, hval, hcount]
        exact ihh.2.1
      · show (m :: (runSeqMangler L ms).2).length = _
        rw [List.length_cons, ihh.2.2.1, List.length_cons]
      · intro p hp hpfree
        rw [show ((m :: ms).zip (m :: (runSeqMangler L ms).2))
          = (m, m) :: (ms.zip (runSeqMangler L ms).2) from rfl] at hp
        rcases List.mem_cons.mp hp with rfl | hp'
        · rfl
        · exact ihh.2.2.2 p hp' hpfree

/-! ## C1 — the sequence-number invariant -/

/-- C1 counterexample: the claim promises that every southbound request
carrying a `seq=` query parameter is emitted with value `lastSeq+1`
regardless of the supplied value.  A southbound request carrying
`seq=x` takes the `strconv.Atoi` error path: the mangler returns
`ManglerErr`, the message is emitted unchanged (its wire `seq` value is
still `x`, not `1`), and the counter does not advance. -/
theorem c1_resequencer_counterexample :
    seqManglerMangle 0 ⟨false, some ⟨"/x", "seq=x"⟩⟩
      = (0, ManglerErr, ⟨false, some ⟨"/x", "seq=x"⟩⟩)
    ∧ southboundSeqVal ⟨false, some ⟨"/x", "seq=x"⟩⟩ ≠ some 1
    ∧ valuesGet (parseQuery "seq=x").1 "seq" = "x" := by
  decide

/-- C1 amended: over any southbound stream (the only side condition —
Latin-1 raw queries — applies to the renumbered messages and is the
regime in which the byte-string model is exact), running the resequencer
from a fresh session (1) ends the counter at the number of sequenced
requests — southbound requests whose parsed query presents a nonempty
`strconv.Atoi`-parsable first `seq` value, the only messages the mangler
renumbers; (2) the `seq` values read back from the emitted wire are
exactly `1, 2, 3, …` regardless of the supplied values; (3) every
message is emitted (none dropped); (4) every non-renumbered message is
emitted byte-for-byte unchanged.  Furthermore (5) a message with no
`seq` parameter or an empty `seq=` value (where `values.Get` yields
`""`) returns `ManglerNoop` — no error — without advancing the counter,
and (6) a southbound request whose query fails to parse or whose
nonempty `seq` value is not Atoi-parsable returns `ManglerErr`, emitted
unchanged, without advancing the counter. -/
theorem c1_resequencer_amended (msgs : List SeqMessage)
    (h : ∀ m ∈ msgs, seqNumericB m = true → latin1B m = true) :
    (runSeqMangler 0 msgs).1 = (countSequenced msgs : Int)
    ∧ (runSeqMangler 0 msgs).2.filterMap southboundSeqVal
        = (List.range (countSequenced msgs)).map (fun i : Nat => (i : Int) + 1)
    ∧ (runSeqMangler 0 msgs).2.length = msgs.length
    ∧ (∀ p ∈ msgs.zip (runSeqMangler 0 msgs).2, seqNumericB p.1 = false → p.2 = p.1)
    ∧ (∀ (m : SeqMessage) (L : Int), seqFreeB m = true →
        seqManglerMangle L m = (L, ManglerNoop, m))
    ∧ ∀ (m : SeqMessage) (L : Int), seqErrB m = true →
        seqManglerMangle L m = (L, ManglerErr, m) := by
  have hs := runSeq_spec msgs 0 h
  refine ⟨by simpa using hs.1, ?_, hs.2.2.1, hs.2.2.2,
    fun m L hm => (seqMangle_free hm L).1,
    fun m L hm => (seqMangle_err hm L).1⟩
  rw [hs.2.1]
  exact List.map_congr_left (fun i _ => by push_cast; ring)

/-- C1 amended witness: a concrete southbound stream — `seq=9`, a
seq-free request, an unparsable `seq=x`, `seq=1` — is renumbered to
`1, 2` (the seq-free and erroring messages contribute no wire value and
do not advance the counter). -/
theorem c1_resequencer_amended_witness :
    (runSeqMangler 0
      [⟨false, some ⟨"/a", "username=u&password=p&seq=9"⟩⟩,
       ⟨false, some ⟨"/b", "a=1"⟩⟩,
       ⟨false, some ⟨"/e", "seq=x"⟩⟩,
       ⟨false, some ⟨"/c", "seq=1"⟩⟩]).2.filterMap southboundSeqVal = [1, 2] := by
  have hr := c1_resequencer_amended
    [⟨false, some ⟨"/a", "username=u&password=p&seq=9"⟩⟩,
     ⟨false, some ⟨"/b", "a=1"⟩⟩,
     ⟨false, some ⟨"/e", "seq=x"⟩⟩,
     ⟨false, some ⟨"/c", "seq=1"⟩⟩] (by decide)
  exact hr.2.1.trans (by decide)

/-! ## Framer helper lemmas (toward C5) -/

theorem bool_eq_false_of_not {b : Bool} (h : ¬ b = true) : b = false := by
  cases b
  · rfl
  · exact absurd rfl h

theorem indexOfSub_nil_unfold (pat : List Nat) :
    indexOfSub [] pat = if pat.isPrefixOf [] then some 0 else none := rfl

theorem indexOfSub_cons_unfold (a : Nat) (t pat : List Nat) :
    indexOfSub (a :: t) pat =
      if pat.isPrefixOf (a :: t) then some 0
      else (indexOfSub t pat).map (fun x => x + 1) := rfl

theorem indexOfSub_spec {l pat : List Nat} :
    ∀ {i : Nat}, indexOfSub l pat = some i →
      pat <+: l.drop i ∧ i + pat.length ≤ l.length := by
  induction l with
  | nil =>
    intro i h
    by_cases hp : pat.isPrefixOf ([] : List Nat)
    · rw [indexOfSub_nil_unfold, if_pos hp] at h
      cases h
      have hpre : pat <+: ([] : List Nat) := List.isPrefixOf_iff_prefix.mp hp
      have hnil : pat = [] := List.prefix_nil.mp hpre
      subst hnil
      simp
    · rw [indexOfSub_nil_unfold, if_neg hp] at h
      cases h
  | cons a t ih =>
    intro i h
    by_cases hp : pat.isPrefixOf (a :: t)
    · rw [indexOfSub_cons_unfold, if_pos hp] at h
      cases h
      have hpre : pat <+: a :: t := List.isPrefixOf_iff_prefix.mp hp
      exact ⟨by simpa using hpre, by simpa using hpre.length_le⟩
    · rw [indexOfSub_cons_unfold, if_neg hp] at h
      simp only [Option.map_eq_some'] at h
      obtain ⟨j, hj, rfl⟩ := h
      have hih := ih hj
      refine ⟨by simpa using hih.1, by simp; omega⟩

theorem isPrefixOf_append_of_le {pat l r : List Nat} (h : pat.length ≤ l.length) :
    pat.isPrefixOf (l ++ r) = pat.isPrefixOf l := by
  by_cases hb : pat <+: l
  · rw [List.isPrefixOf_iff_prefix.mpr hb,
      List.isPrefixOf_iff_prefix.mpr (hb.trans (List.prefix_append l r))]
  · have h2 : ¬ pat <+: (l ++ r) := by
      intro hc
      have htake := List.prefix_iff_eq_take.mp hc
      rw [List.take_append_of_le_length h] at htake
      exact hb (List.prefix_iff_eq_take.mpr htake)
    have e1 : pat.isPrefixOf (l ++ r) = false :=
      bool_eq_false_of_not (fun hc => h2 (List.isPrefixOf_iff_prefix.mp hc))
    have e2 : pat.isPrefixOf l = false :=
      bool_eq_false_of_not (fun hc => hb (List.isPrefixOf_iff_prefix.mp hc))
    rw [e1, e2]

theorem indexOfSub_append {l pat r : List Nat} :
    ∀ {i : Nat}, indexOfSub l pat = some i → indexOfSub (l ++ r) pat = some i := by
  induction l with
  | nil =>
    intro i h
    by_cases hp : pat.isPrefixOf ([] : List Nat)
    · rw [indexOfSub_nil_unfold, if_pos hp] at h
      cases h
      have hpre : pat <+: ([] : List Nat) := List.isPrefixOf_iff_prefix.mp hp
      have hnil : pat = [] := List.prefix_nil.mp hpre
      subst hnil
      rw [List.nil_append]
      cases r with
      | nil =>
        rw [indexOfSub_nil_unfold,
          if_pos (List.isPrefixOf_iff_prefix.mpr List.nil_prefix)]
      | cons b t2 =>
        rw [indexOfSub_cons_unfold,
          if_pos (List.isPrefixOf_iff_prefix.mpr List.nil_prefix)]
    · rw [indexOfSub_nil_unfold, if_neg hp] at h
      cases h
  | cons a t ih =>
    intro i h
    by_cases hp : pat.isPrefixOf (a :: t)
    · rw [indexOfSub_cons_unfold, if_pos hp] at h
      cases h
      have hpre : pat <+: a :: t := List.isPrefixOf_iff_prefix.mp hp
      rw [show (a :: t) ++ r = a :: (t ++ r) from rfl, indexOfSub_cons_unfold,
        if_pos (List.isPrefixOf_iff_prefix.mpr
          (by simpa using hpre.trans (List.prefix_append (a :: t) r)))]
    · rw [indexOfSub_cons_unfold, if_neg hp] at h
      simp only [Option.map_eq_some'] at h
      obtain ⟨j, hj, rfl⟩ := h
      have hlen : pat.length ≤ t.length := by
        have := (indexOfSub_spec hj).2
        omega
      have hnp : ¬ pat.isPrefixOf (a :: (t ++ r)) = true := by
        have hlen2 : pat.length ≤ (a :: t).length := by simp; omega
        rw [show a :: (t ++ r) = (a :: t) ++ r from rfl, isPrefixOf_append_of_le hlen2]
        exact hp
      rw [show (a :: t) ++ r = a :: (t ++ r) from rfl, indexOfSub_cons_unfold,
        if_neg hnp, ih hj]
      rfl

theorem getContentLength_range {hdr : List Nat} :
    ∀ {cl : Int}, getContentLength hdr = some cl → cl = -1 ∨ 0 ≤ cl := by
  rw [getContentLength]
  generalize hlines : scanLines hdr = lines
  clear hlines
  have hgen : ∀ (ls : List (List Nat)) (st : Option Int),
      (∀ x : Int, st = some x → x = -1 ∨ 0 ≤ x) →
      ∀ cl : Int, ls.foldl
        (fun st line =>
          if contentLengthHeaderBytes.isPrefixOf (line.map lowerByte) then
            match findDigitRun line with
            | none => none
            | some ds => some (Int.ofNat (digitRunToNat ds))
          else st) st = some cl → cl = -1 ∨ 0 ≤ cl := by
    intro ls
    induction ls with
    | nil =>
      intro st hst cl h
      exact hst cl h
    | cons l rest ih =>
      intro st hst cl h
      rw [List.foldl_cons] at h
      refine ih _ ?_ cl h
      intro x hx
      split_ifs at hx
      · cases hd : findDigitRun l with
        | none => rw [hd] at hx; cases hx
        | some ds =>
          rw [hd] at hx
          cases hx
          right
          exact Int.ofNat_nonneg _
      · exact hst x hx
  intro cl h
  exact hgen _ _ (by intro x hx; cases hx; left; rfl) cl h

theorem spaceRun_zero {rest : List Nat}
    (h : rest = [] ∨ ∃ b t, rest = b :: t ∧ isSpaceByte b = false) :
    spaceRun rest = 0 := by
  rcases h with rfl | ⟨b, t, rfl, hb⟩
  · rfl
  · simp [spaceRun, hb]

/-- C4 amended witness: the three behaviours at a concrete live state. -/
theorem c4_error_handling_witness :
    (relayInboundRun
        { terminated := false, errors := [], manglers := [], xmitted := [], paged := [] }
        [.message (.error 3), .message (.ok { ident := 1, dropped := false })]).xmitted
      = [{ ident := 1, dropped := false }] :=
  (c4_error_handling
      { terminated := false, errors := [], manglers := [], xmitted := [], paged := [] }
      3 rfl).2.2 rfl { ident := 1, dropped := false }


theorem splitHttpMsg_eq {data : List Nat} {i : Nat} {cl : Int}
    (h : indexOfSub data crlfcrlfBytes = some i)
    (hcl : getContentLength (data.take (i + 4)) = some cl) :
    SplitHttpMsg data =
      (if ((i + 4 : Nat) : Int) + cl > (data.length : Int) then .needMore
       else
         SplitResult.token ((((i + 4 : Nat) : Int) + cl).toNat +
             spaceRun (data.drop ((((i + 4 : Nat) : Int) + cl).toNat)))
           (data.take ((((i + 4 : Nat) : Int) + cl).toNat +
             spaceRun (data.drop ((((i + 4 : Nat) : Int) + cl).toNat))))) := by
  rw [SplitHttpMsg, h]
  show (match getContentLength (data.take (i + 4)) with
       | none => SplitResult.splitFailure
       | some contentLength =>
         if ((i + 4 : Nat) : Int) + contentLength > (data.length : Int) then
           SplitResult.needMore
         else
           SplitResult.token ((((i + 4 : Nat) : Int) + contentLength).toNat +
               spaceRun (data.drop ((((i + 4 : Nat) : Int) + contentLength).toNat)))
             (data.take ((((i + 4 : Nat) : Int) + contentLength).toNat +
               spaceRun (data.drop ((((i + 4 : Nat) : Int) + contentLength).toNat))))) = _
  rw [hcl]

theorem wf_head {m : List Nat} (hm : wellFormedHttpMsg m = true) :
    ∃ b t, m = b :: t ∧ isSpaceByte b = false := by
  cases m with
  | nil => simp [wellFormedHttpMsg] at hm
  | cons b t =>
    refine ⟨b, t, rfl, ?_⟩
    rw [wellFormedHttpMsg] at hm
    simp only [List.head?_cons, Bool.and_eq_true, Bool.not_eq_true'] at hm
    exact hm.1

theorem splitHttpMsg_wf {m rest : List Nat}
    (hm : wellFormedHttpMsg m = true)
    (hrest : rest = [] ∨ ∃ b t, rest = b :: t ∧ isSpaceByte b = false) :
    SplitHttpMsg (m ++ rest) = .token m.length m := by
  obtain ⟨b0, t0, hm0, -⟩ := wf_head hm
  rw [wellFormedHttpMsg] at hm
  rw [hm0] at hm
  simp only [List.head?_cons, Bool.and_eq_true] at hm
  rw [← hm0] at hm
  obtain ⟨-, hm⟩ := hm
  cases hidx : indexOfSub m crlfcrlfBytes with
  | none => rw [hidx] at hm; exact absurd (show false = true from hm) (by decide)
  | some i =>
    rw [hidx] at hm
    have hm2 : (match getContentLength (m.take (i + 4)) with
        | none => false
        | some cl =>
          if cl = -1 then decide (m.length = i + 4)
          else decide ((m.length : Int) = ((i + 4 : Nat) : Int) + cl)) = true := hm
    clear hm
    cases hcl : getContentLength (m.take (i + 4)) with
    | none =>
      rw [hcl] at hm2
      exact absurd (show false = true from hm2) (by decide)
    | some cl =>
      rw [hcl] at hm2
      have hm : (if cl = -1 then decide (m.length = i + 4)
          else decide ((m.length : Int) = ((i + 4 : Nat) : Int) + cl)) = true := hm2
      clear hm2
      have hspec := indexOfSub_spec hidx
      have hle4 : i + 4 ≤ m.length := by
        have := hspec.2
        simp [crlfcrlfBytes] at this
        omega
      have htake : (m ++ rest).take (i + 4) = m.take (i + 4) :=
        List.take_append_of_le_length hle4
      have hsr : spaceRun rest = 0 := spaceRun_zero hrest
      have hcl2 : getContentLength ((m ++ rest).take (i + 4)) = some cl := by
        rw [htake]
        exact hcl
      rw [splitHttpMsg_eq (indexOfSub_append hidx) hcl2]
      by_cases hneg : cl = -1
      · subst hneg
        rw [if_pos rfl] at hm
        simp only [decide_eq_true_eq] at hm
        have hbase : (((i + 4 : Nat) : Int) + (-1)).toNat = i + 3 := by omega
        have hgt : ¬ ((i + 4 : Nat) : Int) + (-1) > ((m ++ rest).length : Int) := by
          simp only [List.length_append]
          omega
        rw [if_neg hgt, hbase]
        have hdropi : m.drop i = crlfcrlfBytes := by
          refine (hspec.1.sublist.eq_of_length ?_).symm
          simp [crlfcrlfBytes, List.length_drop]
          omega
        have hdrop3 : m.drop (i + 3) = [10] := by
          rw [← List.drop_drop, hdropi]
          rfl
        have hdropall : (m ++ rest).drop (i + 3) = 10 :: rest := by
          rw [List.drop_append_of_le_length (by omega), hdrop3]
          rfl
        rw [hdropall]
        have hsp : spaceRun (10 :: rest) = 1 := by
          rw [spaceRun]
          simp [isSpaceByte, hsr]
        rw [hsp, show i + 3 + 1 = m.length from by omega, List.take_left]
      · have hnn : 0 ≤ cl := by
          rcases getContentLength_range hcl with h1 | h1
          · exact absurd h1 hneg
          · exact h1
        rw [if_neg hneg] at hm
        simp only [decide_eq_true_eq] at hm
        have hgt : ¬ ((i + 4 : Nat) : Int) + cl > ((m ++ rest).length : Int) := by
          simp only [List.length_append]
          omega
        rw [if_neg hgt]
        have hbase : (((i + 4 : Nat) : Int) + cl).toNat = m.length := by omega
        rw [hbase, List.drop_left, hsr, Nat.add_zero, List.take_left]

theorem frameLoop_nil (fuel : Nat) : frameLoop fuel [] = [] := by
  cases fuel with
  | zero => rfl
  | succ f => rfl

theorem flatten_head_nonspace : ∀ (msgs : List (List Nat)),
    (∀ m ∈ msgs, wellFormedHttpMsg m = true) →
    msgs.flatten = [] ∨ ∃ b t, msgs.flatten = b :: t ∧ isSpaceByte b = false := by
  intro msgs h
  cases msgs with
  | nil => left; rfl
  | cons m ms =>
    obtain ⟨b, t, hbt, hb⟩ := wf_head (h m (List.mem_cons_self m ms))
    right
    exact ⟨b, t ++ ms.flatten, by rw [List.flatten_cons, hbt]; rfl, hb⟩

theorem frameLoop_wf : ∀ (msgs : List (List Nat)) (fuel : Nat),
    (∀ m ∈ msgs, wellFormedHttpMsg m = true) →
    msgs.length ≤ fuel →
    frameLoop fuel msgs.flatten = msgs := by
  intro msgs
  induction msgs with
  | nil =>
    intro fuel _ _
    exact frameLoop_nil fuel
  | cons m ms ih =>
    intro fuel h hfuel
    cases fuel with
    | zero => simp at hfuel
    | succ f =>
      have hm : wellFormedHttpMsg m = true := h m (List.mem_cons_self m ms)
      have hms : ∀ x ∈ ms, wellFormedHttpMsg x = true :=
        fun x hx => h x (List.mem_cons_of_mem m hx)
      have hsplit : SplitHttpMsg (m ++ ms.flatten) = .token m.length m :=
        splitHttpMsg_wf hm (flatten_head_nonspace ms hms)
      rw [List.flatten_cons, frameLoop, hsplit]
      show m :: frameLoop f (List.drop m.length (m ++ ms.flatten)) = m :: ms
      rw [List.drop_left]
      rw [ih f hms (by simp at hfuel; omega)]

theorem length_le_flatten_length : ∀ (msgs : List (List Nat)),
    (∀ m ∈ msgs, m ≠ []) → msgs.length ≤ msgs.flatten.length := by
  intro msgs
  induction msgs with
  | nil => intro _; simp
  | cons m ms ih =>
    intro h
    have hm : m ≠ [] := h m (List.mem_cons_self m ms)
    have hms := ih (fun x hx => h x (List.mem_cons_of_mem m hx))
    have : 1 ≤ m.length := by
      cases m with
      | nil => exact absurd rfl hm
      | cons _ _ => simp
    simp only [List.flatten_cons, List.length_cons, List.length_append]
    omega

/-- C5: for every list of well-formed wire messages (each with its first
CRLFCRLF closing the header region and total length matching the declared
Content-Length, `-1` meaning header-only), running the bufio framer built
on `SplitHttpMsg` over their concatenation emits exactly the original
messages, in order. -/
theorem c5_framer_complete (msgs : List (List Nat))
    (h : ∀ m ∈ msgs, wellFormedHttpMsg m = true) :
    frameAll msgs.flatten = msgs := by
  rw [frameAll]
  refine frameLoop_wf msgs _ h ?_
  have hne : ∀ m ∈ msgs, m ≠ [] := by
    intro m hm
    obtain ⟨b, t, hbt, -⟩ := wf_head (h m hm)
    rw [hbt]
    simp
  have := length_le_flatten_length msgs hne
  omega

/-- C5 witness, the spec's S4 example: the two pipelined header-only
messages are framed back exactly. -/
theorem c5_framer_complete_witness :
    frameAll (strBytes "foo1\r\nbar1\r\n\r\nfoo2\r\nbar2\r\n\r\n")
      = [strBytes "foo1\r\nbar1\r\n\r\n", strBytes "foo2\r\nbar2\r\n\r\n"] := by
  have h := c5_framer_complete
      [strBytes "foo1\r\nbar1\r\n\r\n", strBytes "foo2\r\nbar2\r\n\r\n"]
      (by decide)
  have hflat :
      ([strBytes "foo1\r\nbar1\r\n\r\n", strBytes "foo2\r\nbar2\r\n\r\n"] :
        List (List Nat)).flatten
      = strBytes "foo1\r\nbar1\r\n\r\nfoo2\r\nbar2\r\n\r\n" := by decide
  rw [← hflat]
  exact h


theorem headerRank_le (order : List (List Nat)) (s : List Nat) :
    headerRank order s ≤ order.length := by
  induction order with
  | nil => simp [headerRank]
  | cons m rest ih =>
    rw [headerRank]
    split_ifs
    · omega
    · simp only [List.length_cons]
      omega

theorem goLessOrder_eq_rank (order : List (List Nat)) (s t : List Nat) :
    goLessOrder order s t = decide (headerRank order s ≤ headerRank order t) := by
  induction order with
  | nil => simp [goLessOrder, headerRank]
  | cons m rest ih =>
    simp only [goLessOrder, headerRank]
    split_ifs <;> simp [ih, Nat.add_le_add_iff_right]

theorem eidc32RequestLess_eq :
    eidc32RequestLess = fun s t => decide (eidc32Rank s ≤ eidc32Rank t) :=
  funext fun s => funext fun t => goLessOrder_eq_rank eidc32RequestHeaderOrder s t

theorem bucketsRev_nil (rank : α → Nat) (k : Nat) : bucketsRev rank [] k = [] := by
  induction k with
  | zero => simp [bucketsRev]
  | succ r ih => simp [bucketsRev, ih]

theorem rank_le_of_mem_bucketsRev {rank : α → Nat} {p : List α} {k : Nat} {z : α}
    (h : z ∈ bucketsRev rank p k) : rank z ≤ k := by
  induction k with
  | zero =>
    rw [bucketsRev] at h
    have hz := (List.mem_filter.mp h).2
    simp only [decide_eq_true_eq] at hz
    omega
  | succ r ih =>
    rw [bucketsRev] at h
    rcases List.mem_append.mp h with h1 | h1
    · have hz := (List.mem_filter.mp h1).2
      simp only [decide_eq_true_eq] at hz
      omega
    · have := ih h1
      omega

theorem rank_le_of_mem_bucketsFwd {rank : α → Nat} {p : List α} {k : Nat} {z : α}
    (h : z ∈ bucketsFwd rank p k) : rank z ≤ k := by
  induction k with
  | zero =>
    rw [bucketsFwd, List.mem_reverse] at h
    have hz := (List.mem_filter.mp h).2
    simp only [decide_eq_true_eq] at hz
    omega
  | succ r ih =>
    rw [bucketsFwd] at h
    rcases List.mem_append.mp h with h1 | h1
    · have := ih h1
      omega
    · rw [List.mem_reverse] at h1
      have hz := (List.mem_filter.mp h1).2
      simp only [decide_eq_true_eq] at hz
      omega

theorem filter_single_eq {rank : α → Nat} {x : α} {r : Nat} (h : rank x = r) :
    List.filter (fun z => decide (rank z = r)) [x] = [x] := by
  simp [h]

theorem filter_single_ne {rank : α → Nat} {x : α} {r : Nat} (h : rank x ≠ r) :
    List.filter (fun z => decide (rank z = r)) [x] = [] := by
  simp [h]

theorem bucketsRev_append_high {rank : α → Nat} {x : α} (p : List α) {k : Nat}
    (h : k < rank x) : bucketsRev rank (p ++ [x]) k = bucketsRev rank p k := by
  induction k with
  | zero =>
    rw [bucketsRev, bucketsRev, List.filter_append, filter_single_ne (by omega),
      List.append_nil]
  | succ r ih =>
    rw [bucketsRev, bucketsRev, List.filter_append, filter_single_ne (by omega),
      List.append_nil, ih (by omega)]

theorem bubble_through {less : α → α → Bool} {x : α} :
    ∀ {B rest : List α}, (∀ y ∈ B, less x y = true) →
      bubbleInsRev less x (B ++ rest) = B ++ bubbleInsRev less x rest := by
  intro B
  induction B with
  | nil => intro rest _; rfl
  | cons y ys ih =>
    intro rest h
    rw [List.cons_append, bubbleInsRev, if_pos (h y (List.mem_cons_self y ys)),
      ih (fun z hz => h z (List.mem_cons_of_mem y hz)), List.cons_append]

theorem bubbleInsRev_bucketsRev {rank : α → Nat} {x : α} (p : List α) :
    ∀ {k : Nat}, rank x ≤ k →
      bubbleInsRev (fun a b => decide (rank a ≤ rank b)) x (bucketsRev rank p k)
        = bucketsRev rank (p ++ [x]) k := by
  intro k
  induction k with
  | zero =>
    intro hx
    have hth := @bubble_through _ (fun a b => decide (rank a ≤ rank b)) x
      (p.filter (fun z => decide (rank z = 0))) []
      (fun y hy => by
        have hy0 := (List.mem_filter.mp hy).2
        simp only [decide_eq_true_eq] at hy0
        simp only [decide_eq_true_eq]
        omega)
    rw [List.append_nil] at hth
    rw [bucketsRev, hth, bucketsRev, List.filter_append, filter_single_eq (by omega)]
    rfl
  | succ r ih =>
    intro hx
    rw [bucketsRev]
    have hth := @bubble_through _ (fun a b => decide (rank a ≤ rank b)) x
      (p.filter (fun z => decide (rank z = r + 1))) (bucketsRev rank p r)
      (fun y hy => by
        have hy0 := (List.mem_filter.mp hy).2
        simp only [decide_eq_true_eq] at hy0
        simp only [decide_eq_true_eq]
        omega)
    rw [hth, bucketsRev, List.filter_append]
    by_cases hxr : rank x = r + 1
    · rw [filter_single_eq hxr, bucketsRev_append_high p (by omega)]
      cases hb : bucketsRev rank p r with
      | nil =>
        simp [bubbleInsRev]
      | cons z zs =>
        have hz : rank z ≤ r := rank_le_of_mem_bucketsRev
          (by rw [hb]; exact List.mem_cons_self z zs)
        rw [bubbleInsRev, if_neg (by simp only [decide_eq_true_eq]; omega)]
        simp [List.append_assoc]
    · rw [filter_single_ne hxr, List.append_nil, ih (by omega)]

theorem foldl_bubble_buckets {rank : α → Nat} {k : Nat} :
    ∀ (l p : List α), (∀ x ∈ l, rank x ≤ k) →
      l.foldl (fun accRev x => bubbleInsRev (fun a b => decide (rank a ≤ rank b)) x accRev)
        (bucketsRev rank p k) = bucketsRev rank (p ++ l) k := by
  intro l
  induction l with
  | nil => intro p _; rw [List.foldl_nil, List.append_nil]
  | cons x xs ih =>
    intro p h
    rw [List.foldl_cons, bubbleInsRev_bucketsRev p (h x (List.mem_cons_self x xs)),
      ih (p ++ [x]) (fun z hz => h z (List.mem_cons_of_mem x hz)),
      List.append_assoc, List.singleton_append]

theorem bucketsRev_reverse {rank : α → Nat} (p : List α) :
    ∀ k, (bucketsRev rank p k).reverse = bucketsFwd rank p k := by
  intro k
  induction k with
  | zero => rw [bucketsRev, bucketsFwd]
  | succ r ih => rw [bucketsRev, bucketsFwd, List.reverse_append, ih]

theorem goInsertionSort_buckets {rank : α → Nat} {k : Nat} {l : List α}
    (h : ∀ x ∈ l, rank x ≤ k) :
    goInsertionSort (fun a b => decide (rank a ≤ rank b)) l = bucketsFwd rank l k := by
  rw [goInsertionSort]
  have h0 := foldl_bubble_buckets l [] h
  rw [bucketsRev_nil, List.nil_append] at h0
  rw [h0, bucketsRev_reverse]

theorem shellPass_eq_foldl_shellStep (less : α → α → Bool) (l : List α) :
    shellPass less l = (List.range l.length).foldl (shellStep less) l := rfl

theorem foldl_shellStep_id (less : α → α → Bool) :
    ∀ (idxs : List Nat), (∀ i ∈ idxs, i < 6) → ∀ (arr : List α),
      idxs.foldl (shellStep less) arr = arr := by
  intro idxs
  induction idxs with
  | nil => intro _ arr; rfl
  | cons i is ih =>
    intro h arr
    rw [List.foldl_cons,
      show shellStep less arr i = arr from by
        rw [shellStep, if_neg (by have := h i (List.mem_cons_self i is); omega)]]
    exact ih (fun j hj => h j (List.mem_cons_of_mem i hj)) arr

theorem shellPass_id {less : α → α → Bool} {l : List α} (h : l.length ≤ 6) :
    shellPass less l = l := by
  rw [shellPass_eq_foldl_shellStep]
  exact foldl_shellStep_id less (List.range l.length)
    (fun i hi => by rw [List.mem_range] at hi; omega) l

theorem eidc32Rank_le (s : List Nat) : eidc32Rank s ≤ 5 :=
  headerRank_le eidc32RequestHeaderOrder s

/-- C3 (corrected): for a header block of at most 6 lines (Go 1.13
`sort.Sort` on such a slice is its shell pass, which moves nothing, then
insertion sort), `sort.Sort(eidc32RequestHeaderSort(h))` produces the
table-ranked buckets in ascending rank order, where every bucket —
including the trailing bucket of headers matching no table entry — holds
its lines in REVERSE input order, because `Less` answers `true` for two
unmatched headers (and for two headers of equal rank), so insertion sort
keeps swapping them.  The claimed stability (unmatched headers preserved
in original relative order after the ordered prefix) fails; what holds is
that the unmatched headers form the final segment, reversed. -/
theorem c3_unmatched_headers_reversed (l : List (List Nat)) (h6 : l.length ≤ 6) :
    goSortSmall eidc32RequestLess l
      = bucketsFwd eidc32Rank l 4 ++ (l.filter (fun s => !eidc32Matched s)).reverse
    ∧ ∀ s ∈ bucketsFwd eidc32Rank l 4, eidc32Matched s = true := by
  have hlen : eidc32RequestHeaderOrder.length = 5 := rfl
  constructor
  · rw [goSortSmall, shellPass_id h6, eidc32RequestLess_eq,
      goInsertionSort_buckets (fun x _ => eidc32Rank_le x), bucketsFwd]
    have hcongr : ∀ s ∈ l, (decide (eidc32Rank s = 4 + 1) : Bool) = !eidc32Matched s := by
      intro s _
      have h5 := eidc32Rank_le s
      rw [eidc32Matched, hlen]
      by_cases hh : eidc32Rank s = 5
      · simp [hh]
      · have hlt : eidc32Rank s < 5 := by omega
        simp [hh, hlt]
    rw [List.filter_congr hcongr]
  · intro s hs
    have h4 := rank_le_of_mem_bucketsFwd hs
    rw [eidc32Matched, hlen]
    simp only [decide_eq_true_eq]
    omega

/-- C3 witness: the amended characterization at the three-line header
block `POST /x HTTP/1.1`, `Aaa: 1`, `Bbb: 2`. -/
theorem c3_unmatched_headers_reversed_witness :
    ([strBytes "POST /x HTTP/1.1", strBytes "Aaa: 1", strBytes "Bbb: 2"] :
        List (List Nat)).length ≤ 6
    ∧ (goSortSmall eidc32RequestLess
          [strBytes "POST /x HTTP/1.1", strBytes "Aaa: 1", strBytes "Bbb: 2"]
        = bucketsFwd eidc32Rank
            [strBytes "POST /x HTTP/1.1", strBytes "Aaa: 1", strBytes "Bbb: 2"] 4 ++
          (([strBytes "POST /x HTTP/1.1", strBytes "Aaa: 1", strBytes "Bbb: 2"] :
              List (List Nat)).filter (fun s => !eidc32Matched s)).reverse
      ∧ ∀ s ∈ bucketsFwd eidc32Rank
            [strBytes "POST /x HTTP/1.1", strBytes "Aaa: 1", strBytes "Bbb: 2"] 4,
          eidc32Matched s = true) :=
  ⟨by decide, c3_unmatched_headers_reversed
    [strBytes "POST /x HTTP/1.1", strBytes "Aaa: 1", strBytes "Bbb: 2"] (by decide)⟩

/-- C3 counterexample: `impersonateEIDC32Request` on a request whose two
headers `Aaa` and `Bbb` match no entry of the ordering table emits them
swapped; the claimed stable reordering would leave this input unchanged
(its unmatched headers are already behind the table-matched request
line), as the second conjunct records. -/
theorem c3_stability_counterexample :
    impersonateEIDC32Request
        (strBytes "POST /x HTTP/1.1\r\nAaa: 1\r\nBbb: 2\r\n\r\n")
      = some (strBytes "POST /x HTTP/1.1\r\nBbb: 2\r\nAaa: 1\r\n\r\n")
    ∧ strBytes "POST /x HTTP/1.1\r\nBbb: 2\r\nAaa: 1\r\n\r\n"
        ≠ strBytes "POST /x HTTP/1.1\r\nAaa: 1\r\nBbb: 2\r\n\r\n" :=
  ⟨by decide, by decide⟩

end Eidc32proxy
